import Mathlib

/-!
# AudioSpectrogram: the streaming analysis pipeline of `TelevisionAudioProcessor`

A shallow embedding of `Source/PluginProcessor.{h,cpp}`.

* Samples (`float`, `double`) are elements of an arbitrary linearly ordered
  field `K`, so arithmetic is exact; instantiated at `ℚ` every definition runs.
* `std::deque<float>` and `std::vector<float>` are `List K`; an indexed read is
  `List.getD _ i 0`, an indexed write is `List.set`.
* `samplesSinceLastFFT` is an `Int`, container sizes are `Nat`.  The counter
  never exceeds the accumulator length, so 32-bit wrap-around would need a
  block of about `2^31` samples and is not modelled.
* The JUCE library objects (`juce::dsp::FFT`, the Hann `WindowingFunction`,
  `MathConstants::twoPi`, `std::sin`) are the fields of an environment `Env`.
* Each `while` loop returns, next to the final state, the list of transforms it
  computed (a ghost log); the state component is the code's state.
-/

set_option linter.unusedSectionVars false

namespace AudioSpectrogram

/-! ## Configuration constants (`PluginProcessor.h`, lines 47-50) -/

/-- Constant `fftOrder = 10`. -/
def fftOrder : Nat := 10

/-- Constant `fftSize = 1 << fftOrder`. -/
def fftSize : Nat := 1 <<< fftOrder

/-- Constant `hopSize = fftSize / 4`. -/
def hopSize : Nat := fftSize / 4

/-- Constant `numBins = fftSize / 2`. -/
def numBins : Nat := fftSize / 2

/-- Counted loop `for (int i = 0; i < n; ++i) body (i)` over a loop state. -/
def forLoop {σ : Type} (n : Nat) (body : Nat → σ → σ) (init : σ) : σ :=
  (List.range n).foldl (fun st i => body i st) init

/-- The last `n` entries of a sequence, in order. -/
def lastSamples {α : Type} (n : Nat) (l : List α) : List α := l.drop (l.length - n)

/-- Number of passes of an analysis loop entered with `len` accumulated samples. -/
def iterations (len : Nat) : Nat :=
  if len < fftSize then 0 else (len - fftSize) / hopSize + 1

section Model

variable {K : Type} [LinearOrderedField K]

/-- Library environment: `juce::MathConstants<double>::twoPi`, `std::sin`, the
table of the Hann `juce::dsp::WindowingFunction`, and
`juce::dsp::FFT::performFrequencyOnlyForwardTransform` as a function on the
working buffer. -/
structure Env (K : Type) where
  twoPi : K
  sin : K → K
  windowTable : List K
  transform : List K → List K

/-- Library routine `WindowingFunction::multiplyWithWindowingTable (samples, size)`:
the first `min size tableSize` samples are multiplied in place by the table. -/
def multiplyWithWindowingTable (table : List K) (samples : List K) (size : Nat) : List K :=
  forLoop (min size table.length)
    (fun i d => d.set i (d.getD i 0 * table.getD i 0)) samples

/-- Member variables of `TelevisionAudioProcessor` (`PluginProcessor.h`, lines 78-90). -/
structure TelevisionAudioProcessor (K : Type) where
  monoFifo : List K
  samplesSinceLastFFT : Int
  currentSR : K
  latestMagnitudes : List K
  phase : K
  sineFifo : List K
  latestSineMagnitudes : List K

/-- A `juce::AudioBuffer<float>`: `numSamples` samples in each of the channels. -/
structure AudioBuffer (K : Type) where
  numSamples : Nat
  channels : List (List K)

/-- Method `AudioBuffer::getNumChannels`. -/
def AudioBuffer.getNumChannels (b : AudioBuffer K) : Nat := b.channels.length

/-- Method `AudioBuffer::getReadPointer (ch)`: the samples of channel `ch`. -/
def AudioBuffer.getReadPointer (b : AudioBuffer K) (ch : Nat) : List K :=
  b.channels.getD ch []

/-- Method `AudioBuffer::getSample (ch, i)`. -/
def AudioBuffer.getSample (b : AudioBuffer K) (ch i : Nat) : K :=
  (b.channels.getD ch []).getD i 0

/-- Method `AudioBuffer::setSample (ch, i, v)`. -/
def AudioBuffer.setSample (b : AudioBuffer K) (ch i : Nat) (v : K) : AudioBuffer K :=
  { b with channels := b.channels.set ch ((b.channels.getD ch []).set i v) }

/-- One executed iteration of an analysis loop: the working buffer `fftData`
as filled from the accumulator (before windowing), and the vector the store
holds when the critical section is left. -/
structure FFTRecord (K : Type) where
  fftData : List K
  published : List K

/-- The frame an iteration analysed: the first `fftSize` entries of `fftData`. -/
def FFTRecord.frame (r : FFTRecord K) : List K := r.fftData.take fftSize

namespace TelevisionAudioProcessor

/-- Constructor (`PluginProcessor.cpp`, lines 4-20), with the in-class
initialisers of `PluginProcessor.h`. -/
def construct : TelevisionAudioProcessor K :=
  { monoFifo := []
    samplesSinceLastFFT := 0
    currentSR := 44100
    latestMagnitudes := List.replicate numBins 0
    phase := 0
    sineFifo := []
    latestSineMagnitudes := List.replicate numBins 0 }

/-- Method `prepareToPlay (sampleRate, samplesPerBlockExpected)` (lines 40-47). -/
def prepareToPlay (s : TelevisionAudioProcessor K) (sampleRate : K) :
    TelevisionAudioProcessor K :=
  { s with
    currentSR := sampleRate
    monoFifo := []
    sineFifo := []
    samplesSinceLastFFT := 0
    phase := 0 }

/-- Line 101: `rightOrNull ? 0.5f * (left[i] + rightOrNull[i]) : left[i]`. -/
def mixSample (left : List K) (rightOrNull : Option (List K)) (i : Nat) : K :=
  match rightOrNull with
  | some right => (1 / 2) * (left.getD i 0 + right.getD i 0)
  | none => left.getD i 0

/-- Method `pushAudioToFifo (left, rightOrNull, numSamples)` (lines 95-106). -/
def pushAudioToFifo (s : TelevisionAudioProcessor K) (left : List K)
    (rightOrNull : Option (List K)) (numSamples : Nat) : TelevisionAudioProcessor K :=
  let resized := s.monoFifo ++ List.replicate numSamples 0
  let filled := forLoop numSamples
    (fun i fifo => fifo.set (fifo.length - numSamples + i) (mixSample left rightOrNull i))
    resized
  { s with monoFifo := filled, samplesSinceLastFFT := s.samplesSinceLastFFT + numSamples }

/-- Lines 112-116 (and 146-150): `fftData` is `2 * fftSize` zeros, then its
first `fftSize` entries are copied from the accumulator at `startIdx`. -/
def fillFFTData (fifo : List K) : List K :=
  let startIdx := fifo.length - fftSize
  forLoop fftSize (fun i d => d.set i (fifo.getD (startIdx + i) 0))
    (List.replicate (fftSize * 2) 0)

/-- Lines 121-128 (and 155-162): the locked copy of the first `numBins`
entries of `fftData` into the store. -/
def publish (latest : List K) (fftData : List K) : List K :=
  let base := if latest.length ≠ numBins then List.replicate numBins 0 else latest
  forLoop numBins (fun i m => m.set i (fftData.getD i 0)) base

/-- Method `runFFTIfReady` (lines 108-133), returning also the log of the
iterations of its `while` loop. -/
def runFFTIfReadyLog (env : Env K) (s : TelevisionAudioProcessor K) :
    TelevisionAudioProcessor K × List (FFTRecord K) :=
  if s.samplesSinceLastFFT ≥ (hopSize : Int) ∧ (s.monoFifo.length : Int) ≥ (fftSize : Int) then
    let fftData := fillFFTData s.monoFifo
    let windowed := multiplyWithWindowingTable env.windowTable fftData fftSize
    let spectrum := env.transform windowed
    let latest := publish s.latestMagnitudes spectrum
    let rest := runFFTIfReadyLog env
      { s with
        latestMagnitudes := latest
        monoFifo := s.monoFifo.drop hopSize
        samplesSinceLastFFT := s.samplesSinceLastFFT - hopSize }
    (rest.1, { fftData := fftData, published := latest } :: rest.2)
  else
    (s, [])
termination_by s.monoFifo.length
decreasing_by
  simp only [List.length_drop]
  have h1 : fftSize = 1024 := by decide
  have h2 : hopSize = 256 := by decide
  omega

/-- Method `runFFTIfReady` (lines 108-133). -/
def runFFTIfReady (env : Env K) (s : TelevisionAudioProcessor K) :
    TelevisionAudioProcessor K :=
  (runFFTIfReadyLog env s).1

/-- Method `pushSineToFifo (samples, numSamples)` (lines 135-140). -/
def pushSineToFifo (s : TelevisionAudioProcessor K) (samples : List K)
    (numSamples : Nat) : TelevisionAudioProcessor K :=
  let resized := s.sineFifo ++ List.replicate numSamples 0
  let filled := forLoop numSamples
    (fun i fifo => fifo.set (fifo.length - numSamples + i) (samples.getD i 0))
    resized
  { s with sineFifo := filled }

/-- Method `runSineFFTIfReady` (lines 142-166), returning also the log of the
iterations of its `while` loop. -/
def runSineFFTIfReadyLog (env : Env K) (s : TelevisionAudioProcessor K) :
    TelevisionAudioProcessor K × List (FFTRecord K) :=
  if (s.sineFifo.length : Int) ≥ (fftSize : Int) then
    let fftData := fillFFTData s.sineFifo
    let windowed := multiplyWithWindowingTable env.windowTable fftData fftSize
    let spectrum := env.transform windowed
    let latest := publish s.latestSineMagnitudes spectrum
    let rest := runSineFFTIfReadyLog env
      { s with
        latestSineMagnitudes := latest
        sineFifo := s.sineFifo.drop hopSize }
    (rest.1, { fftData := fftData, published := latest } :: rest.2)
  else
    (s, [])
termination_by s.sineFifo.length
decreasing_by
  simp only [List.length_drop]
  have h1 : fftSize = 1024 := by decide
  have h2 : hopSize = 256 := by decide
  omega

/-- Method `runSineFFTIfReady` (lines 142-166). -/
def runSineFFTIfReady (env : Env K) (s : TelevisionAudioProcessor K) :
    TelevisionAudioProcessor K :=
  (runSineFFTIfReadyLog env s).1

/-- Method `getLatestSpectrum` (lines 168-172): the value assigned to `outSlice`. -/
def getLatestSpectrum (s : TelevisionAudioProcessor K) : List K := s.latestMagnitudes

/-- Method `getLatestSineSpectrum` (lines 174-178): the value assigned to `outSlice`. -/
def getLatestSineSpectrum (s : TelevisionAudioProcessor K) : List K :=
  s.latestSineMagnitudes

/-- Loop state of the tone loop of `processBlock` (lines 77-88): the member
`phase`, the local `sineBuffer` and the audio buffer being written. -/
structure ToneLoop (K : Type) where
  phase : K
  sineBuffer : List K
  buffer : AudioBuffer K

/-- Body of the tone loop (lines 79-87) for sample index `i`. -/
def toneBody (env : Env K) (sineLevel phaseInc : K) (numChannels : Nat) (i : Nat)
    (st : ToneLoop K) : ToneLoop K :=
  let x := env.sin st.phase * sineLevel
  let sineBuffer := st.sineBuffer.set i x
  let phase1 := st.phase + phaseInc
  let phase2 := if phase1 ≥ env.twoPi then phase1 - env.twoPi else phase1
  let buffer := forLoop numChannels
    (fun ch b => b.setSample ch i (b.getSample ch i + x)) st.buffer
  { phase := phase2, sineBuffer := sineBuffer, buffer := buffer }

/-- Lines 73-88 of `processBlock`, run for the first `n` sample indices of a
block: `sineLevelParam` is the value `getSineLevel ()` returns. -/
def toneLoop (env : Env K) (sineLevelParam : K) (s : TelevisionAudioProcessor K)
    (buffer : AudioBuffer K) (n : Nat) : ToneLoop K :=
  let sineLevel := sineLevelParam * 0.2
  let phaseInc := env.twoPi * 440 / s.currentSR
  forLoop n (toneBody env sineLevel phaseInc buffer.getNumChannels)
    { phase := s.phase
      sineBuffer := List.replicate buffer.numSamples 0
      buffer := buffer }

/-- Lines 63-70 of `processBlock`: the input feed, up to and including
`pushAudioToFifo`. -/
def feedInput (s : TelevisionAudioProcessor K) (buffer : AudioBuffer K) :
    TelevisionAudioProcessor K :=
  let numSamples := buffer.numSamples
  let numChannels := buffer.getNumChannels
  let left := buffer.getReadPointer 0
  let right := if numChannels > 1 then some (buffer.getReadPointer 1) else none
  s.pushAudioToFifo left right numSamples

/-- Lines 72-91 of `processBlock`: tone generation up to and including
`pushSineToFifo`, from the state `s` left by `runFFTIfReady`. -/
def feedSine (env : Env K) (sineLevelParam : K) (s : TelevisionAudioProcessor K)
    (buffer : AudioBuffer K) : TelevisionAudioProcessor K :=
  let t := toneLoop env sineLevelParam s buffer buffer.numSamples
  pushSineToFifo { s with phase := t.phase } t.sineBuffer buffer.numSamples

/-- What one call of `processBlock` yields: the processor state, the audio
buffer as left for the host, and the transforms computed on each track. -/
structure BlockResult (K : Type) where
  state : TelevisionAudioProcessor K
  buffer : AudioBuffer K
  fftLog : List (FFTRecord K)
  sineLog : List (FFTRecord K)

/-- Method `processBlock (buffer, midi)` (lines 59-93), with the logs of its
two analysis loops. -/
def processBlockLog (env : Env K) (s : TelevisionAudioProcessor K)
    (sineLevelParam : K) (buffer : AudioBuffer K) : BlockResult K :=
  let r1 := runFFTIfReadyLog env (feedInput s buffer)
  let t := toneLoop env sineLevelParam r1.1 buffer buffer.numSamples
  let r2 := runSineFFTIfReadyLog env (feedSine env sineLevelParam r1.1 buffer)
  { state := r2.1, buffer := t.buffer, fftLog := r1.2, sineLog := r2.2 }

/-- Method `processBlock (buffer, midi)` (lines 59-93): the processor state it leaves. -/
def processBlock (env : Env K) (s : TelevisionAudioProcessor K)
    (sineLevelParam : K) (buffer : AudioBuffer K) : TelevisionAudioProcessor K :=
  (processBlockLog env s sineLevelParam buffer).state

/-- A run of `processBlock` calls, one per element of `blocks` (the
`sineLevel` parameter read by the call, and its buffer). -/
def processBlocks (env : Env K) (s : TelevisionAudioProcessor K)
    (blocks : List (K × AudioBuffer K)) : TelevisionAudioProcessor K :=
  blocks.foldl (fun st b => processBlock env st b.1 b.2) s

/-! ## Observers used to state the properties -/

/-- Number of samples delivered by a run of blocks. -/
def samplesPushed (blocks : List (K × AudioBuffer K)) : Nat :=
  (blocks.map (fun b => b.2.numSamples)).sum

/-- The samples `processBlock` hands to the primary accumulator for one buffer:
the values `pushAudioToFifo` computes on line 101, in order. -/
def pushedAudio (buffer : AudioBuffer K) : List K :=
  (List.range buffer.numSamples).map
    (mixSample (buffer.getReadPointer 0)
      (if buffer.getNumChannels > 1 then some (buffer.getReadPointer 1) else none))

/-- The samples `processBlock` hands to `pushSineToFifo` for one buffer: the
local `sineBuffer` of that call. -/
def pushedSine (env : Env K) (s : TelevisionAudioProcessor K) (sineLevelParam : K)
    (buffer : AudioBuffer K) : List K :=
  (toneLoop env sineLevelParam (runFFTIfReady env (feedInput s buffer)) buffer
    buffer.numSamples).sineBuffer

/-- Every sample pushed to the primary accumulator during a run of blocks. -/
def audioHistory : List (K × AudioBuffer K) → List K
  | [] => []
  | b :: bs => pushedAudio b.2 ++ audioHistory bs

/-- Every sample pushed to the tone accumulator during a run of blocks from `s`. -/
def sineHistory (env : Env K) (s : TelevisionAudioProcessor K) :
    List (K × AudioBuffer K) → List K
  | [] => []
  | b :: bs => pushedSine env s b.1 b.2 ++ sineHistory env (processBlock env s b.1 b.2) bs

/-- Every transform `runFFTIfReady` computed during a run of blocks from `s`. -/
def fftLogs (env : Env K) (s : TelevisionAudioProcessor K) :
    List (K × AudioBuffer K) → List (FFTRecord K)
  | [] => []
  | b :: bs =>
    (processBlockLog env s b.1 b.2).fftLog ++ fftLogs env (processBlock env s b.1 b.2) bs

/-- Every transform `runSineFFTIfReady` computed during a run of blocks from `s`. -/
def sineLogs (env : Env K) (s : TelevisionAudioProcessor K) :
    List (K × AudioBuffer K) → List (FFTRecord K)
  | [] => []
  | b :: bs =>
    (processBlockLog env s b.1 b.2).sineLog ++ sineLogs env (processBlock env s b.1 b.2) bs

/-- What one pass of an analysis loop stores when the accumulator holds `fifo`:
lines 112-128 applied to `fifo`. -/
def passSpectrum (env : Env K) (fifo : List K) : List K :=
  publish [] (env.transform (multiplyWithWindowingTable env.windowTable (fillFFTData fifo) fftSize))

/-- The windowed frame handed to the transform: `frame`, entry by entry times
the window table, followed by the `fftSize` zeros of the upper half of `fftData`. -/
def windowedFrame (env : Env K) (frame : List K) : List K :=
  List.zipWith (fun x w => x * w) frame env.windowTable ++ List.replicate fftSize 0

/-- Comparison loop for the track-equivalence property: `runFFTIfReady` with the
hop-counter test taken out of the `while` condition (the guard of
`runSineFFTIfReady`, on the primary accumulator); the body is unchanged. -/
def runFFTByLengthLog (env : Env K) (s : TelevisionAudioProcessor K) :
    TelevisionAudioProcessor K × List (FFTRecord K) :=
  if (s.monoFifo.length : Int) ≥ (fftSize : Int) then
    let fftData := fillFFTData s.monoFifo
    let windowed := multiplyWithWindowingTable env.windowTable fftData fftSize
    let spectrum := env.transform windowed
    let latest := publish s.latestMagnitudes spectrum
    let rest := runFFTByLengthLog env
      { s with
        latestMagnitudes := latest
        monoFifo := s.monoFifo.drop hopSize
        samplesSinceLastFFT := s.samplesSinceLastFFT - hopSize }
    (rest.1, { fftData := fftData, published := latest } :: rest.2)
  else
    (s, [])
termination_by s.monoFifo.length
decreasing_by
  simp only [List.length_drop]
  have h1 : fftSize = 1024 := by decide
  have h2 : hopSize = 256 := by decide
  omega

/-- States the processor can be in between host calls: the constructed one, and
those reached from it by `prepareToPlay` and `processBlock` in any order. -/
inductive Reachable (env : Env K) : TelevisionAudioProcessor K → Prop
  | construct : Reachable env construct
  | prepareToPlay (s : TelevisionAudioProcessor K) (sampleRate : K) :
      Reachable env s → Reachable env (s.prepareToPlay sampleRate)
  | processBlock (s : TelevisionAudioProcessor K) (sineLevelParam : K)
      (buffer : AudioBuffer K) :
      Reachable env s → Reachable env (processBlock env s sineLevelParam buffer)

/-- A buffer of `numSamples` equal samples in each of `numChannels` channels. -/
def constantBuffer (numChannels numSamples : Nat) (x : K) : AudioBuffer K :=
  { numSamples := numSamples
    channels := List.replicate numChannels (List.replicate numSamples x) }

/-- An environment over `ℚ` for running the model: identity transform, an
all-ones window table of `fftSize + 1` entries, `sin` and `twoPi` stand-ins. -/
def testEnv : Env ℚ :=
  { twoPi := 6
    sin := fun x => x
    windowTable := List.replicate (fftSize + 1) 1
    transform := fun d => d }

/-- A mono block of `fftSize` zeros followed by `hopSize` ones. -/
def stepBlock : List ℚ := List.replicate fftSize 0 ++ List.replicate hopSize 1

/-- A new processor on which `pushAudioToFifo` has just pushed `stepBlock`: the
state in which `runFFTIfReady` is entered with `fftSize + hopSize` samples. -/
def stepState : TelevisionAudioProcessor ℚ :=
  (construct : TelevisionAudioProcessor ℚ).pushAudioToFifo stepBlock none (fftSize + hopSize)

/-- A run of one stereo block of `fftSize` samples: enough to end the warm-up. -/
def warmRun : List (ℚ × AudioBuffer ℚ) := [(1, constantBuffer 2 fftSize 1)]

end TelevisionAudioProcessor

/-! ## Loops over buffers -/

theorem forLoop_zero {σ : Type} (body : Nat → σ → σ) (init : σ) :
    forLoop 0 body init = init := by
  simp [forLoop]

theorem forLoop_succ {σ : Type} (n : Nat) (body : Nat → σ → σ) (init : σ) :
    forLoop (n + 1) body init = body n (forLoop n body init) := by
  simp [forLoop, List.range_succ]

/-- A loop that writes entry `off + i` from the value read at the same place
rewrites a contiguous slice of the buffer and nothing else. -/
theorem forLoop_set_slice {α : Type} (z : α) (off : Nat) (v : Nat → α → α) (l : List α)
    (body : Nat → List α → List α)
    (hbody : ∀ i d, d.length = l.length →
      body i d = d.set (off + i) (v i (d.getD (off + i) z)))
    (m : Nat) (hm : off + m ≤ l.length) :
    forLoop m body l
      = l.take off ++ (List.range m).map (fun i => v i (l.getD (off + i) z))
          ++ l.drop (off + m) := by
  induction m with
  | zero => simp [forLoop_zero]
  | succ m ih =>
    have hlt : off + m < l.length := by omega
    rw [forLoop_succ, ih (by omega)]
    have hpre : (l.take off ++ (List.range m).map (fun i => v i (l.getD (off + i) z))).length
        = off + m := by
      simp
      omega
    rw [hbody _ _ (by simp; omega)]
    rw [List.drop_eq_getElem_cons hlt]
    rw [List.getD_append_right _ _ _ _ (by omega)]
    rw [List.set_append, if_neg (by omega)]
    simp only [hpre, Nat.sub_self, List.getD_cons_zero, List.set_cons_zero]
    rw [List.range_succ, List.map_append]
    simp [Nat.add_assoc, List.getElem?_eq_getElem hlt]

theorem fftSize_eq : fftSize = 1024 := by decide

theorem hopSize_eq : hopSize = 256 := by decide

theorem numBins_eq : numBins = 512 := by decide

attribute [irreducible] fftSize hopSize numBins

theorem getD_drop_zero {α : Type} (l : List α) (n i : Nat) (z : α) :
    (l.drop n).getD i z = l.getD (n + i) z := by
  simp [List.getD_eq_getElem?_getD, List.getElem?_drop]

/-- Reading `n` consecutive entries from `off` on yields that slice. -/
theorem map_getD_range {α : Type} (z : α) (l : List α) (off n : Nat)
    (h : off + n ≤ l.length) :
    (List.range n).map (fun i => l.getD (off + i) z) = (l.drop off).take n := by
  apply List.ext_getElem
  · simp
    omega
  · intro i h1 h2
    simp at h1
    simp [List.getD_eq_getElem?_getD, List.getElem?_eq_getElem (show off + i < l.length by omega)]

namespace TelevisionAudioProcessor

theorem fillFFTData_eq (fifo : List K) :
    fillFFTData fifo
      = (List.range fftSize).map (fun i => fifo.getD (fifo.length - fftSize + i) 0)
          ++ List.replicate fftSize 0 := by
  unfold fillFFTData
  rw [forLoop_set_slice (0 : K) 0 (fun i _ => fifo.getD (fifo.length - fftSize + i) 0)
    (List.replicate (fftSize * 2) 0) _ (by intro i d _; simp) fftSize (by simp; omega)]
  simp only [List.take_zero, List.nil_append, Nat.zero_add, List.drop_replicate]
  congr 2
  omega

theorem fillFFTData_of_le (fifo : List K) (h : fftSize ≤ fifo.length) :
    fillFFTData fifo = lastSamples fftSize fifo ++ List.replicate fftSize 0 := by
  rw [fillFFTData_eq, map_getD_range 0 fifo _ _ (by omega), lastSamples]
  rw [List.take_of_length_le (by simp; omega)]

theorem length_lastSamples {α : Type} (n : Nat) (l : List α) (h : n ≤ l.length) :
    (lastSamples n l).length = n := by
  simp [lastSamples]
  omega

theorem lastSamples_append_of_le {α : Type} (n : Nat) (l l2 : List α) (h : n ≤ l2.length) :
    lastSamples n (l ++ l2) = lastSamples n l2 := by
  unfold lastSamples
  rw [List.drop_append_eq_append_drop, List.drop_of_length_le (by simp; omega)]
  simp
  congr 1
  omega

theorem lastSamples_drop {α : Type} (n k : Nat) (l : List α) (h : n + k ≤ l.length) :
    lastSamples n (l.drop k) = lastSamples n l := by
  unfold lastSamples
  rw [List.drop_drop, List.length_drop]
  congr 1
  omega

theorem frame_fillFFTData (fifo : List K) (h : fftSize ≤ fifo.length) :
    (fillFFTData fifo).take fftSize = lastSamples fftSize fifo := by
  rw [fillFFTData_of_le fifo h, List.take_left' (length_lastSamples _ _ h)]

theorem publish_eq (latest d : List K) :
    publish latest d = (List.range numBins).map (fun i => d.getD i 0) := by
  unfold publish
  have hlen : (if latest.length ≠ numBins then List.replicate numBins (0 : K) else latest).length
      = numBins := by
    split <;> simp_all
  rw [forLoop_set_slice (0 : K) 0 (fun i _ => d.getD i 0) _ _ (by intro i d _; simp) numBins
    (by omega)]
  rw [Nat.zero_add, List.drop_of_length_le (Nat.le_of_eq hlen)]
  simp

theorem publish_of_le (latest d : List K) (h : numBins ≤ d.length) :
    publish latest d = d.take numBins := by
  rw [publish_eq]
  have := map_getD_range (0 : K) d 0 numBins (by omega)
  simpa using this

theorem length_publish (latest d : List K) : (publish latest d).length = numBins := by
  simp [publish_eq]

theorem multiplyWithWindowingTable_frame (env : Env K) (frame : List K)
    (hf : frame.length = fftSize) (hw : fftSize ≤ env.windowTable.length) :
    multiplyWithWindowingTable env.windowTable (frame ++ List.replicate fftSize 0) fftSize
      = windowedFrame env frame := by
  unfold multiplyWithWindowingTable windowedFrame
  rw [forLoop_set_slice (0 : K) 0 (fun i x => x * env.windowTable.getD i 0) _ _
    (by intro i d _; simp) _ (by simp)]
  rw [Nat.min_eq_left hw]
  simp only [List.take_zero, List.nil_append, Nat.zero_add]
  have h1 : (List.range fftSize).map
      (fun i => (frame ++ List.replicate fftSize (0 : K)).getD i 0 * env.windowTable.getD i 0)
      = List.zipWith (fun x w => x * w) frame env.windowTable := by
    apply List.ext_getElem
    · simp only [List.length_map, List.length_range, List.length_zipWith, hf]
      omega
    · intro i h1 h2
      simp only [List.length_map, List.length_range] at h1
      have hi : i < frame.length := by omega
      have hi2 : i < env.windowTable.length := by omega
      simp [List.getD_eq_getElem?_getD, List.getElem?_append_left hi,
        List.getElem?_eq_getElem hi, List.getElem?_eq_getElem hi2]
  rw [h1, List.drop_left' hf]

theorem pushAudioToFifo_monoFifo (s : TelevisionAudioProcessor K) (left : List K)
    (rightOrNull : Option (List K)) (n : Nat) :
    (s.pushAudioToFifo left rightOrNull n).monoFifo
      = s.monoFifo ++ (List.range n).map (mixSample left rightOrNull) := by
  unfold pushAudioToFifo
  simp only
  rw [forLoop_set_slice (0 : K) s.monoFifo.length (fun i _ => mixSample left rightOrNull i)
    (s.monoFifo ++ List.replicate n 0) _ _ n (by simp)]
  · simp
  · intro i d hd
    congr 1
    simp at hd
    omega

theorem pushSineToFifo_sineFifo (s : TelevisionAudioProcessor K) (samples : List K)
    (n : Nat) :
    (s.pushSineToFifo samples n).sineFifo
      = s.sineFifo ++ (List.range n).map (fun i => samples.getD i 0) := by
  unfold pushSineToFifo
  simp only
  rw [forLoop_set_slice (0 : K) s.sineFifo.length (fun i _ => samples.getD i 0)
    (s.sineFifo ++ List.replicate n 0) _ _ n (by simp)]
  · simp
  · intro i d hd
    congr 1
    simp at hd
    omega

end TelevisionAudioProcessor

theorem iterations_of_lt (len : Nat) (h : len < fftSize) : iterations len = 0 := by
  simp [iterations, h]

theorem iterations_step (len : Nat) (h : fftSize ≤ len) :
    iterations len = iterations (len - hopSize) + 1 := by
  unfold iterations
  rw [fftSize_eq, hopSize_eq] at *
  split_ifs <;> omega

theorem iterations_eq_zero_iff (len : Nat) : iterations len = 0 ↔ len < fftSize := by
  unfold iterations
  split_ifs with h <;> simp [h]

theorem iterations_pos_iff (len : Nat) : 0 < iterations len ↔ fftSize ≤ len := by
  unfold iterations
  split_ifs with h <;> simp <;> omega

theorem hop_iterations_le (len : Nat) : hopSize * iterations len ≤ len := by
  unfold iterations
  rw [fftSize_eq, hopSize_eq]
  split_ifs <;> omega

/-- After the loop fewer than `fftSize` samples remain. -/
theorem length_after_lt (len : Nat) : len - hopSize * iterations len < fftSize := by
  unfold iterations
  rw [fftSize_eq, hopSize_eq]
  split_ifs <;> omega

/-- Once the loop has run at least once, at least `fftSize - hopSize` samples remain. -/
theorem length_after_ge (len : Nat) (h : fftSize ≤ len) :
    fftSize - hopSize ≤ len - hopSize * iterations len := by
  unfold iterations
  rw [fftSize_eq, hopSize_eq] at *
  split_ifs <;> omega

namespace TelevisionAudioProcessor

theorem passSpectrum_drop (env : Env K) (fifo : List K)
    (h : fftSize + hopSize ≤ fifo.length) :
    passSpectrum env (fifo.drop hopSize) = passSpectrum env fifo := by
  unfold passSpectrum
  rw [fillFFTData_of_le _ (by simp; omega), fillFFTData_of_le _ (by omega),
    lastSamples_drop _ _ _ h]

theorem fillFFTData_drop (fifo : List K) (h : fftSize + hopSize ≤ fifo.length) :
    fillFFTData (fifo.drop hopSize) = fillFFTData fifo := by
  rw [fillFFTData_of_le _ (by simp; omega), fillFFTData_of_le _ (by omega),
    lastSamples_drop _ _ _ h]

/-- Closed form of `runSineFFTIfReady`: the loop makes `iterations` passes, every
pass analyses the frame found at entry, and `hopSize` samples go per pass. -/
theorem runSineFFTIfReadyLog_eq (env : Env K) (s : TelevisionAudioProcessor K) :
    runSineFFTIfReadyLog env s
      = ({ s with
            sineFifo := s.sineFifo.drop (hopSize * iterations s.sineFifo.length)
            latestSineMagnitudes :=
              if iterations s.sineFifo.length = 0 then s.latestSineMagnitudes
              else passSpectrum env s.sineFifo },
          List.replicate (iterations s.sineFifo.length)
            { fftData := fillFFTData s.sineFifo, published := passSpectrum env s.sineFifo }) := by
  generalize hn : s.sineFifo.length = n
  induction n using Nat.strong_induction_on generalizing s with
  | _ n ih =>
    subst hn
    rw [runSineFFTIfReadyLog]
    by_cases hlen : fftSize ≤ s.sineFifo.length
    · have hcond : (s.sineFifo.length : Int) ≥ (fftSize : Int) := by exact_mod_cast hlen
      rw [if_pos hcond]
      have hlt : (s.sineFifo.drop hopSize).length < s.sineFifo.length := by
        have h1 := fftSize_eq
        have h2 := hopSize_eq
        simp only [List.length_drop]
        omega
      simp only
      rw [ih _ hlt _ rfl]
      have hstep := iterations_step _ hlen
      have hpub : publish s.latestSineMagnitudes
          (env.transform (multiplyWithWindowingTable env.windowTable (fillFFTData s.sineFifo) fftSize))
          = passSpectrum env s.sineFifo := by
        rw [passSpectrum, publish_eq, publish_eq]
      simp only [List.length_drop, hpub, List.drop_drop]
      by_cases hk : iterations (s.sineFifo.length - hopSize) = 0
      · rw [hstep, hk]
        simp
      · have hge : fftSize + hopSize ≤ s.sineFifo.length := by
          have := (iterations_pos_iff (s.sineFifo.length - hopSize)).1 (Nat.pos_of_ne_zero hk)
          have h1 := fftSize_eq
          have h2 := hopSize_eq
          omega
        rw [hstep, passSpectrum_drop env _ hge, fillFFTData_drop _ hge]
        simp [hk, List.replicate_succ, Nat.mul_add, Nat.add_comm]
    · have hcond : ¬ ((s.sineFifo.length : Int) ≥ (fftSize : Int)) := by
        intro h
        exact hlen (by exact_mod_cast h)
      rw [if_neg hcond, iterations_of_lt _ (by omega)]
      simp

end TelevisionAudioProcessor

theorem forLoop_invariant {σ : Type} (P : σ → Prop) (body : Nat → σ → σ) (init : σ)
    (h0 : P init) (hstep : ∀ i st, P st → P (body i st)) (n : Nat) :
    P (forLoop n body init) := by
  induction n with
  | zero => simpa [forLoop_zero] using h0
  | succ n ih =>
    rw [forLoop_succ]
    exact hstep _ _ ih

namespace TelevisionAudioProcessor

/-- Closed form of `runFFTIfReady` on a state whose hop counter equals the
accumulator length. -/
theorem runFFTIfReadyLog_eq (env : Env K) (s : TelevisionAudioProcessor K)
    (hinv : s.samplesSinceLastFFT = (s.monoFifo.length : Int)) :
    runFFTIfReadyLog env s
      = ({ s with
            monoFifo := s.monoFifo.drop (hopSize * iterations s.monoFifo.length)
            samplesSinceLastFFT :=
              s.samplesSinceLastFFT - ((hopSize * iterations s.monoFifo.length : Nat) : Int)
            latestMagnitudes :=
              if iterations s.monoFifo.length = 0 then s.latestMagnitudes
              else passSpectrum env s.monoFifo },
          List.replicate (iterations s.monoFifo.length)
            { fftData := fillFFTData s.monoFifo, published := passSpectrum env s.monoFifo }) := by
  generalize hn : s.monoFifo.length = n
  induction n using Nat.strong_induction_on generalizing s with
  | _ n ih =>
    subst hn
    rw [runFFTIfReadyLog]
    have h1 := fftSize_eq
    have h2 := hopSize_eq
    by_cases hlen : fftSize ≤ s.monoFifo.length
    · have hcond : s.samplesSinceLastFFT ≥ (hopSize : Int)
          ∧ (s.monoFifo.length : Int) ≥ (fftSize : Int) := by
        rw [hinv]
        constructor
        · exact_mod_cast (by omega : hopSize ≤ s.monoFifo.length)
        · exact_mod_cast hlen
      rw [if_pos hcond]
      have hlt : (s.monoFifo.drop hopSize).length < s.monoFifo.length := by
        simp only [List.length_drop]
        omega
      simp only
      rw [ih _ hlt _ (by simp only [List.length_drop, hinv]; omega) rfl]
      have hstep := iterations_step _ hlen
      have hpub : publish s.latestMagnitudes
          (env.transform (multiplyWithWindowingTable env.windowTable (fillFFTData s.monoFifo) fftSize))
          = passSpectrum env s.monoFifo := by
        rw [passSpectrum, publish_eq, publish_eq]
      simp only [List.length_drop, hpub, List.drop_drop]
      by_cases hk : iterations (s.monoFifo.length - hopSize) = 0
      · rw [hstep, hk]
        simp
      · have hge : fftSize + hopSize ≤ s.monoFifo.length := by
          have := (iterations_pos_iff (s.monoFifo.length - hopSize)).1 (Nat.pos_of_ne_zero hk)
          omega
        rw [hstep, passSpectrum_drop env _ hge, fillFFTData_drop _ hge]
        simp only [hk, if_false, Nat.succ_ne_zero, List.replicate_succ, Nat.mul_add, Nat.mul_one]
        congr 2
        · rw [Nat.add_comm]
        · push_cast
          ring
    · have hcond : ¬ (s.samplesSinceLastFFT ≥ (hopSize : Int)
          ∧ (s.monoFifo.length : Int) ≥ (fftSize : Int)) := by
        intro h
        exact hlen (by exact_mod_cast h.2)
      rw [if_neg hcond, iterations_of_lt _ (by omega)]
      simp

theorem pushAudioToFifo_eq (s : TelevisionAudioProcessor K) (left : List K)
    (rightOrNull : Option (List K)) (n : Nat) :
    s.pushAudioToFifo left rightOrNull n
      = { s with
          monoFifo := s.monoFifo ++ (List.range n).map (mixSample left rightOrNull)
          samplesSinceLastFFT := s.samplesSinceLastFFT + n } := by
  have h := pushAudioToFifo_monoFifo s left rightOrNull n
  unfold pushAudioToFifo at h ⊢
  simp only at h ⊢
  rw [h]

theorem feedInput_eq (s : TelevisionAudioProcessor K) (buffer : AudioBuffer K) :
    feedInput s buffer
      = { s with
          monoFifo := s.monoFifo ++ pushedAudio buffer
          samplesSinceLastFFT := s.samplesSinceLastFFT + buffer.numSamples } := by
  unfold feedInput pushedAudio
  simp only
  rw [pushAudioToFifo_eq]

theorem length_pushedAudio (buffer : AudioBuffer K) :
    (pushedAudio buffer).length = buffer.numSamples := by
  simp [pushedAudio]

theorem toneBody_length (env : Env K) (a b : K) (c i : Nat) (st : ToneLoop K) :
    (toneBody env a b c i st).sineBuffer.length = st.sineBuffer.length := by
  simp [toneBody]

theorem length_toneLoop_sineBuffer (env : Env K) (level : K) (s : TelevisionAudioProcessor K)
    (buffer : AudioBuffer K) (n : Nat) :
    (toneLoop env level s buffer n).sineBuffer.length = buffer.numSamples := by
  unfold toneLoop
  simp only
  apply forLoop_invariant (fun st : ToneLoop K => st.sineBuffer.length = buffer.numSamples)
  · simp
  · intro i st h
    rw [toneBody_length, h]

theorem pushSineToFifo_eq (s : TelevisionAudioProcessor K) (samples : List K) (n : Nat)
    (h : samples.length = n) :
    s.pushSineToFifo samples n = { s with sineFifo := s.sineFifo ++ samples } := by
  have h1 := pushSineToFifo_sineFifo s samples n
  have h2 := map_getD_range (0 : K) samples 0 n (by omega)
  simp only [Nat.zero_add, List.drop_zero] at h2
  rw [h2, List.take_of_length_le (by omega)] at h1
  unfold pushSineToFifo at h1 ⊢
  simp only at h1 ⊢
  rw [h1]

end TelevisionAudioProcessor

namespace TelevisionAudioProcessor

theorem feedSine_eq (env : Env K) (level : K) (x : TelevisionAudioProcessor K)
    (buffer : AudioBuffer K) :
    feedSine env level x buffer
      = { x with
          phase := (toneLoop env level x buffer buffer.numSamples).phase
          sineFifo := x.sineFifo ++ (toneLoop env level x buffer buffer.numSamples).sineBuffer } := by
  unfold feedSine
  simp only
  rw [pushSineToFifo_eq _ _ _ (length_toneLoop_sineBuffer _ _ _ _ _)]

theorem length_pushedSine (env : Env K) (s : TelevisionAudioProcessor K) (level : K)
    (buffer : AudioBuffer K) :
    (pushedSine env s level buffer).length = buffer.numSamples := by
  unfold pushedSine
  rw [length_toneLoop_sineBuffer]

/-- One `processBlock` call, track by track, on a state whose hop counter equals
the primary accumulator length. -/
theorem processBlockLog_spec (env : Env K) (s : TelevisionAudioProcessor K) (level : K)
    (buffer : AudioBuffer K) (hinv : s.samplesSinceLastFFT = (s.monoFifo.length : Int)) :
    let a := s.monoFifo ++ pushedAudio buffer
    let b := s.sineFifo ++ pushedSine env s level buffer
    let r := processBlockLog env s level buffer
    r.fftLog = List.replicate (iterations a.length)
        { fftData := fillFFTData a, published := passSpectrum env a }
    ∧ r.sineLog = List.replicate (iterations b.length)
        { fftData := fillFFTData b, published := passSpectrum env b }
    ∧ r.state.monoFifo = a.drop (hopSize * iterations a.length)
    ∧ r.state.samplesSinceLastFFT = (r.state.monoFifo.length : Int)
    ∧ r.state.sineFifo = b.drop (hopSize * iterations b.length)
    ∧ r.state.latestMagnitudes
        = (if iterations a.length = 0 then s.latestMagnitudes else passSpectrum env a)
    ∧ r.state.latestSineMagnitudes
        = (if iterations b.length = 0 then s.latestSineMagnitudes else passSpectrum env b)
    ∧ r.state.currentSR = s.currentSR := by
  intro a b r
  have hinv2 : (feedInput s buffer).samplesSinceLastFFT
      = ((feedInput s buffer).monoFifo.length : Int) := by
    rw [feedInput_eq]
    simp only [List.length_append, length_pushedAudio, hinv]
    push_cast
    rfl
  have hr1 := runFFTIfReadyLog_eq env (feedInput s buffer) hinv2
  have ha : (feedInput s buffer).monoFifo = a := by rw [feedInput_eq]
  rw [ha] at hr1
  have hps : (toneLoop env level (runFFTIfReadyLog env (feedInput s buffer)).1 buffer
      buffer.numSamples).sineBuffer = pushedSine env s level buffer := rfl
  have hfs : (feedSine env level (runFFTIfReadyLog env (feedInput s buffer)).1 buffer).sineFifo
      = b := by
    unfold feedSine
    simp only
    rw [pushSineToFifo_eq _ _ _ (length_toneLoop_sineBuffer _ _ _ _ _), hps]
    have hsf : (runFFTIfReadyLog env (feedInput s buffer)).1.sineFifo = s.sineFifo := by
      rw [hr1, feedInput_eq]
    rw [hsf]
  have hr2 := runSineFFTIfReadyLog_eq env
    (feedSine env level (runFFTIfReadyLog env (feedInput s buffer)).1 buffer)
  rw [hfs] at hr2
  have hstate : r.state = (runSineFFTIfReadyLog env
    (feedSine env level (runFFTIfReadyLog env (feedInput s buffer)).1 buffer)).1 := rfl
  have hsl : r.sineLog = (runSineFFTIfReadyLog env
    (feedSine env level (runFFTIfReadyLog env (feedInput s buffer)).1 buffer)).2 := rfl
  have hfl2 : r.fftLog = (runFFTIfReadyLog env (feedInput s buffer)).2 := rfl
  have hm : (runFFTIfReadyLog env (feedInput s buffer)).1.monoFifo
      = a.drop (hopSize * iterations a.length) := by rw [hr1]
  have hc : (runFFTIfReadyLog env (feedInput s buffer)).1.samplesSinceLastFFT
      = s.samplesSinceLastFFT + buffer.numSamples
          - ((hopSize * iterations a.length : Nat) : Int) := by rw [hr1, feedInput_eq]
  have hsr : (runFFTIfReadyLog env (feedInput s buffer)).1.currentSR = s.currentSR := by
    rw [hr1, feedInput_eq]
  have hlm : (runFFTIfReadyLog env (feedInput s buffer)).1.latestMagnitudes
      = (if iterations a.length = 0 then s.latestMagnitudes else passSpectrum env a) := by
    rw [hr1, feedInput_eq]
  have hlsm : (runFFTIfReadyLog env (feedInput s buffer)).1.latestSineMagnitudes
      = s.latestSineMagnitudes := by
    rw [hr1, feedInput_eq]
  have hfeed := feedSine_eq env level (runFFTIfReadyLog env (feedInput s buffer)).1 buffer
  rw [hstate, hsl, hfl2, hr2]
  refine ⟨by rw [hr1], rfl, ?_, ?_, rfl, ?_, ?_, ?_⟩
  · show (feedSine env level (runFFTIfReadyLog env (feedInput s buffer)).1 buffer).monoFifo = _
    rw [hfeed, hm]
  · show (feedSine env level (runFFTIfReadyLog env (feedInput s buffer)).1
        buffer).samplesSinceLastFFT
      = (((feedSine env level (runFFTIfReadyLog env (feedInput s buffer)).1
        buffer).monoFifo.length : Nat) : Int)
    rw [hfeed]
    simp only [hc, hm, hinv, List.length_drop]
    have := hop_iterations_le a.length
    have hal : a.length = s.monoFifo.length + buffer.numSamples := by
      simp only [a, List.length_append, length_pushedAudio]
    omega
  · show (feedSine env level (runFFTIfReadyLog env (feedInput s buffer)).1
        buffer).latestMagnitudes = _
    rw [hfeed, hlm]
  · show (if iterations b.length = 0 then (feedSine env level
        (runFFTIfReadyLog env (feedInput s buffer)).1 buffer).latestSineMagnitudes
        else passSpectrum env b) = _
    rw [hfeed, hlsm]
  · show (feedSine env level (runFFTIfReadyLog env (feedInput s buffer)).1 buffer).currentSR = _
    rw [hfeed, hsr]

end TelevisionAudioProcessor

/-- Passes made on the samples left by earlier passes plus `n` new ones. -/
theorem iterations_add (len n : Nat) :
    iterations (len - hopSize * iterations len + n) + iterations len = iterations (len + n)
    ∧ hopSize * iterations len + hopSize * iterations (len - hopSize * iterations len + n)
        = hopSize * iterations (len + n) := by
  unfold iterations
  rw [fftSize_eq, hopSize_eq]
  split_ifs <;> omega

theorem drop_append_drop {α : Type} (h p : List α) (c d : Nat) (hc : c ≤ h.length) :
    (h.drop c ++ p).drop d = (h ++ p).drop (c + d) := by
  rw [← List.drop_drop, List.drop_append_of_le_length hc]

namespace TelevisionAudioProcessor

theorem samplesPushed_cons (b : K × AudioBuffer K) (bs : List (K × AudioBuffer K)) :
    samplesPushed (b :: bs) = b.2.numSamples + samplesPushed bs := by
  simp [samplesPushed]

theorem samplesPushed_append (bs cs : List (K × AudioBuffer K)) :
    samplesPushed (bs ++ cs) = samplesPushed bs + samplesPushed cs := by
  simp [samplesPushed]

theorem processBlocks_cons (env : Env K) (s : TelevisionAudioProcessor K)
    (b : K × AudioBuffer K) (bs : List (K × AudioBuffer K)) :
    processBlocks env s (b :: bs) = processBlocks env (processBlock env s b.1 b.2) bs := rfl

theorem processBlocks_append (env : Env K) (s : TelevisionAudioProcessor K)
    (bs cs : List (K × AudioBuffer K)) :
    processBlocks env s (bs ++ cs) = processBlocks env (processBlocks env s bs) cs := by
  simp [processBlocks, List.foldl_append]

/-- Invariant of a run of `processBlock` calls: each accumulator is the track's
sample history with `hopSize` samples removed per transform so far. -/
theorem processBlocks_spec (env : Env K) (bs : List (K × AudioBuffer K)) :
    ∀ (s : TelevisionAudioProcessor K) (ha hs : List K),
      s.samplesSinceLastFFT = (s.monoFifo.length : Int) →
      s.monoFifo = ha.drop (hopSize * iterations ha.length) →
      s.sineFifo = hs.drop (hopSize * iterations hs.length) →
      (processBlocks env s bs).samplesSinceLastFFT
          = ((processBlocks env s bs).monoFifo.length : Int)
      ∧ (processBlocks env s bs).monoFifo
          = (ha ++ audioHistory bs).drop (hopSize * iterations (ha.length + samplesPushed bs))
      ∧ (processBlocks env s bs).sineFifo
          = (hs ++ sineHistory env s bs).drop
              (hopSize * iterations (hs.length + samplesPushed bs))
      ∧ (fftLogs env s bs).length + iterations ha.length
          = iterations (ha.length + samplesPushed bs)
      ∧ (sineLogs env s bs).length + iterations hs.length
          = iterations (hs.length + samplesPushed bs)
      ∧ (processBlocks env s bs).currentSR = s.currentSR
      ∧ ((fftLogs env s bs).length = 0 →
          (processBlocks env s bs).latestMagnitudes = s.latestMagnitudes)
      ∧ ((sineLogs env s bs).length = 0 →
          (processBlocks env s bs).latestSineMagnitudes = s.latestSineMagnitudes) := by
  induction bs with
  | nil =>
    intro s ha hs h1 h2 h3
    simp [processBlocks, audioHistory, sineHistory, fftLogs, sineLogs, samplesPushed, h1, h2, h3]
  | cons b bs ih =>
    intro s ha hs h1 h2 h3
    obtain ⟨q1, q2, q3, q4, q5, q6, q7, q8⟩ := processBlockLog_spec env s b.1 b.2 h1
    have hla : (s.monoFifo ++ pushedAudio b.2).length
        = ha.length - hopSize * iterations ha.length + b.2.numSamples := by
      rw [List.length_append, length_pushedAudio, h2, List.length_drop]
    have hls : (s.sineFifo ++ pushedSine env s b.1 b.2).length
        = hs.length - hopSize * iterations hs.length + b.2.numSamples := by
      rw [List.length_append, length_pushedSine, h3, List.length_drop]
    rw [hla] at q1 q3 q6
    rw [hls] at q2 q5 q7
    have ea := iterations_add ha.length b.2.numSamples
    have es := iterations_add hs.length b.2.numSamples
    have hca := hop_iterations_le ha.length
    have hcs := hop_iterations_le hs.length
    have hm : (processBlock env s b.1 b.2).monoFifo
        = (ha ++ pushedAudio b.2).drop
            (hopSize * iterations ((ha ++ pushedAudio b.2).length)) := by
      show (processBlockLog env s b.1 b.2).state.monoFifo = _
      rw [q3, h2, drop_append_drop _ _ _ _ hca, ea.2, List.length_append, length_pushedAudio]
    have hsf : (processBlock env s b.1 b.2).sineFifo
        = (hs ++ pushedSine env s b.1 b.2).drop
            (hopSize * iterations ((hs ++ pushedSine env s b.1 b.2).length)) := by
      show (processBlockLog env s b.1 b.2).state.sineFifo = _
      rw [q5, h3, drop_append_drop _ _ _ _ hcs, es.2, List.length_append, length_pushedSine]
    obtain ⟨r1, r2, r3, r4, r5, r6, r7, r8⟩ := ih (processBlock env s b.1 b.2)
      (ha ++ pushedAudio b.2) (hs ++ pushedSine env s b.1 b.2) q4 hm hsf
    simp only [List.length_append, length_pushedAudio, length_pushedSine] at r2 r3 r4 r5
    rw [processBlocks_cons, samplesPushed_cons]
    have hfl : (fftLogs env s (b :: bs)).length
        = (processBlockLog env s b.1 b.2).fftLog.length
          + (fftLogs env (processBlock env s b.1 b.2) bs).length := by
      simp [fftLogs]
    have hsl : (sineLogs env s (b :: bs)).length
        = (processBlockLog env s b.1 b.2).sineLog.length
          + (sineLogs env (processBlock env s b.1 b.2) bs).length := by
      simp [sineLogs]
    have hq1 := congrArg List.length q1
    have hq2 := congrArg List.length q2
    rw [List.length_replicate] at hq1 hq2
    refine ⟨r1, ?_, ?_, ?_, ?_, ?_, ?_, ?_⟩
    · rw [r2, audioHistory, List.append_assoc, Nat.add_assoc]
    · rw [r3, sineHistory, List.append_assoc, Nat.add_assoc]
    · rw [hfl, hq1, ← Nat.add_assoc]
      omega
    · rw [hsl, hq2, ← Nat.add_assoc]
      omega
    · rw [r6]
      exact q8
    · intro h0
      rw [hfl] at h0
      rw [r7 (by omega)]
      show (processBlockLog env s b.1 b.2).state.latestMagnitudes = _
      rw [q6, if_pos (by omega)]
    · intro h0
      rw [hsl] at h0
      rw [r8 (by omega)]
      show (processBlockLog env s b.1 b.2).state.latestSineMagnitudes = _
      rw [q7, if_pos (by omega)]

end TelevisionAudioProcessor

namespace TelevisionAudioProcessor

theorem length_audioHistory (bs : List (K × AudioBuffer K)) :
    (audioHistory bs).length = samplesPushed bs := by
  induction bs with
  | nil => simp [audioHistory, samplesPushed]
  | cons b bs ih =>
    rw [audioHistory, List.length_append, length_pushedAudio, ih, samplesPushed_cons]

theorem length_sineHistory (env : Env K) (bs : List (K × AudioBuffer K)) :
    ∀ s : TelevisionAudioProcessor K, (sineHistory env s bs).length = samplesPushed bs := by
  induction bs with
  | nil => simp [sineHistory, samplesPushed]
  | cons b bs ih =>
    intro s
    rw [sineHistory, List.length_append, length_pushedSine, ih, samplesPushed_cons]

theorem iterations_zero : iterations 0 = 0 :=
  iterations_of_lt 0 (by rw [fftSize_eq]; omega)

/-- A run of blocks from a state with empty accumulators and a zero hop counter. -/
theorem run_from_reset (env : Env K) (s0 : TelevisionAudioProcessor K)
    (hm : s0.monoFifo = []) (hs : s0.sineFifo = []) (hc : s0.samplesSinceLastFFT = 0)
    (bs : List (K × AudioBuffer K)) :
    (processBlocks env s0 bs).samplesSinceLastFFT
        = ((processBlocks env s0 bs).monoFifo.length : Int)
    ∧ (processBlocks env s0 bs).monoFifo
        = (audioHistory bs).drop (hopSize * iterations (samplesPushed bs))
    ∧ (processBlocks env s0 bs).sineFifo
        = (sineHistory env s0 bs).drop (hopSize * iterations (samplesPushed bs))
    ∧ (fftLogs env s0 bs).length = iterations (samplesPushed bs)
    ∧ (sineLogs env s0 bs).length = iterations (samplesPushed bs)
    ∧ (processBlocks env s0 bs).currentSR = s0.currentSR
    ∧ ((fftLogs env s0 bs).length = 0 →
        (processBlocks env s0 bs).latestMagnitudes = s0.latestMagnitudes)
    ∧ ((sineLogs env s0 bs).length = 0 →
        (processBlocks env s0 bs).latestSineMagnitudes = s0.latestSineMagnitudes) := by
  have h := processBlocks_spec env bs s0 [] [] (by rw [hc, hm]; rfl) (by rw [hm]; simp)
    (by rw [hs]; simp)
  simpa [iterations_zero] using h

theorem reset_of_fresh (s0 : TelevisionAudioProcessor K)
    (h : s0 = construct ∨ ∃ s sr, s0 = prepareToPlay s sr) :
    s0.monoFifo = [] ∧ s0.sineFifo = [] ∧ s0.samplesSinceLastFFT = 0 := by
  rcases h with h | ⟨s, sr, h⟩ <;> subst h <;> exact ⟨rfl, rfl, rfl⟩

/-- Accumulator lengths at the start of a call that follows a run from a reset. -/
theorem lengths_after_run (env : Env K) (s0 : TelevisionAudioProcessor K)
    (hm : s0.monoFifo = []) (hs : s0.sineFifo = []) (hc : s0.samplesSinceLastFFT = 0)
    (bs : List (K × AudioBuffer K)) (level : K) (buffer : AudioBuffer K) :
    ((processBlocks env s0 bs).monoFifo ++ pushedAudio buffer).length
        = samplesPushed bs - hopSize * iterations (samplesPushed bs) + buffer.numSamples
    ∧ ((processBlocks env s0 bs).sineFifo
          ++ pushedSine env (processBlocks env s0 bs) level buffer).length
        = samplesPushed bs - hopSize * iterations (samplesPushed bs) + buffer.numSamples := by
  obtain ⟨_, r2, r3, _⟩ := run_from_reset env s0 hm hs hc bs
  constructor
  · rw [List.length_append, r2, List.length_drop, length_audioHistory, length_pushedAudio]
  · rw [List.length_append, r3, List.length_drop, length_sineHistory, length_pushedSine]

end TelevisionAudioProcessor

/-! ## Hop cadence and warm-up -/

namespace TelevisionAudioProcessor

/-- Claim C1 (hop cadence). After a reset and any run of blocks, on a track
that has already computed a transform, a block of `k * hopSize` samples
(`k ≥ 1`, so also a block of exactly `hopSize` samples) makes `processBlock`
compute exactly `k` transforms on that track, and the store then holds the
spectrum published by the last of them. -/
theorem hop_cadence (env : Env K) (s0 : TelevisionAudioProcessor K) (sr : K)
    (bs : List (K × AudioBuffer K)) (level : K) (buffer : AudioBuffer K) (k : Nat)
    (hk : 1 ≤ k) (hn : buffer.numSamples = k * hopSize) :
    (fftLogs env (s0.prepareToPlay sr) bs ≠ [] →
      (processBlockLog env (processBlocks env (s0.prepareToPlay sr) bs) level buffer).fftLog.length
          = k
      ∧ (processBlockLog env (processBlocks env (s0.prepareToPlay sr) bs) level
            buffer).fftLog.getLast?.map FFTRecord.published
          = some (processBlockLog env (processBlocks env (s0.prepareToPlay sr) bs) level
              buffer).state.getLatestSpectrum)
    ∧ (sineLogs env (s0.prepareToPlay sr) bs ≠ [] →
      (processBlockLog env (processBlocks env (s0.prepareToPlay sr) bs) level buffer).sineLog.length
          = k
      ∧ (processBlockLog env (processBlocks env (s0.prepareToPlay sr) bs) level
            buffer).sineLog.getLast?.map FFTRecord.published
          = some (processBlockLog env (processBlocks env (s0.prepareToPlay sr) bs) level
              buffer).state.getLatestSineSpectrum) := by
  obtain ⟨r1, _, _, r4, r5, _⟩ := run_from_reset env (s0.prepareToPlay sr) rfl rfl rfl bs
  obtain ⟨la, ls⟩ := lengths_after_run env (s0.prepareToPlay sr) rfl rfl rfl bs level buffer
  obtain ⟨q1, q2, _, _, _, q6, q7, _⟩ :=
    processBlockLog_spec env (processBlocks env (s0.prepareToPlay sr) bs) level buffer r1
  have key : 0 < iterations (samplesPushed bs) →
      iterations (samplesPushed bs - hopSize * iterations (samplesPushed bs)
        + buffer.numSamples) = k := by
    rw [hn]
    unfold iterations
    rw [fftSize_eq, hopSize_eq]
    split_ifs <;> omega
  rw [la] at q1 q6
  rw [ls] at q2 q7
  constructor
  · intro hne
    have hpos : 0 < iterations (samplesPushed bs) := by
      rw [← r4]
      exact List.length_pos.2 hne
    rw [key hpos] at q1 q6
    rw [getLatestSpectrum, q6, q1, List.length_replicate, List.getLast?_replicate,
      if_neg (by omega), if_neg (by omega)]
    exact ⟨rfl, rfl⟩
  · intro hne
    have hpos : 0 < iterations (samplesPushed bs) := by
      rw [← r5]
      exact List.length_pos.2 hne
    rw [key hpos] at q2 q7
    rw [getLatestSineSpectrum, q7, q2, List.length_replicate, List.getLast?_replicate,
      if_neg (by omega), if_neg (by omega)]
    exact ⟨rfl, rfl⟩

end TelevisionAudioProcessor

namespace TelevisionAudioProcessor

/-- Once `fftSize` samples have been delivered since a reset, both tracks have
computed a transform. -/
theorem logs_ne_nil_of_warm (env : Env K) (s0 : TelevisionAudioProcessor K)
    (hm : s0.monoFifo = []) (hs : s0.sineFifo = []) (hc : s0.samplesSinceLastFFT = 0)
    (bs : List (K × AudioBuffer K)) (h : fftSize ≤ samplesPushed bs) :
    fftLogs env s0 bs ≠ [] ∧ sineLogs env s0 bs ≠ [] := by
  obtain ⟨_, _, _, r4, r5, _⟩ := run_from_reset env s0 hm hs hc bs
  have hpos := (iterations_pos_iff _).2 h
  exact ⟨List.length_pos.1 (by omega), List.length_pos.1 (by omega)⟩

theorem samplesPushed_warmRun : samplesPushed warmRun = fftSize := by
  simp [samplesPushed, warmRun, constantBuffer]

/-- Witness for `hop_cadence`: after one block of `fftSize` samples both tracks
are warm, and a block of `3 * hopSize` samples makes each compute 3 transforms. -/
theorem hop_cadence_witness :
    (fftLogs testEnv ((construct : TelevisionAudioProcessor ℚ).prepareToPlay 44100) warmRun ≠ []
      ∧ sineLogs testEnv ((construct : TelevisionAudioProcessor ℚ).prepareToPlay 44100) warmRun
          ≠ [])
    ∧ (processBlockLog testEnv
          (processBlocks testEnv ((construct : TelevisionAudioProcessor ℚ).prepareToPlay 44100)
            warmRun) 1 (constantBuffer 2 (3 * hopSize) 2)).fftLog.length = 3
    ∧ (processBlockLog testEnv
          (processBlocks testEnv ((construct : TelevisionAudioProcessor ℚ).prepareToPlay 44100)
            warmRun) 1 (constantBuffer 2 (3 * hopSize) 2)).sineLog.length = 3 := by
  have hw := logs_ne_nil_of_warm testEnv
    ((construct : TelevisionAudioProcessor ℚ).prepareToPlay 44100) rfl rfl rfl warmRun
    (Nat.le_of_eq samplesPushed_warmRun.symm)
  have h := hop_cadence testEnv (construct : TelevisionAudioProcessor ℚ) 44100 warmRun 1
    (constantBuffer 2 (3 * hopSize) 2) 3 (by decide) rfl
  exact ⟨hw, (h.1 hw.1).1, (h.2 hw.2).1⟩

/-- Claim C2 (warm-up). From a freshly constructed or freshly reset processor
and for every run of blocks: while fewer than `fftSize` samples have been
delivered in total neither analysis loop has computed a transform, and the call
whose block brings the total to `fftSize` or more computes one on each track. -/
theorem warm_up (env : Env K) (s0 : TelevisionAudioProcessor K)
    (hfresh : s0 = construct ∨ ∃ s sr, s0 = prepareToPlay s sr)
    (bs : List (K × AudioBuffer K)) (level : K) (buffer : AudioBuffer K) :
    (samplesPushed bs < fftSize → fftLogs env s0 bs = [] ∧ sineLogs env s0 bs = [])
    ∧ (samplesPushed bs + buffer.numSamples < fftSize →
        (processBlockLog env (processBlocks env s0 bs) level buffer).fftLog = []
        ∧ (processBlockLog env (processBlocks env s0 bs) level buffer).sineLog = [])
    ∧ (samplesPushed bs < fftSize → fftSize ≤ samplesPushed bs + buffer.numSamples →
        (processBlockLog env (processBlocks env s0 bs) level buffer).fftLog ≠ []
        ∧ (processBlockLog env (processBlocks env s0 bs) level buffer).sineLog ≠ []) := by
  obtain ⟨hm, hs, hc⟩ := reset_of_fresh s0 hfresh
  obtain ⟨r1, _, _, r4, r5, _⟩ := run_from_reset env s0 hm hs hc bs
  obtain ⟨la, ls⟩ := lengths_after_run env s0 hm hs hc bs level buffer
  obtain ⟨q1, q2, _⟩ := processBlockLog_spec env (processBlocks env s0 bs) level buffer r1
  rw [la] at q1
  rw [ls] at q2
  have hq1 := congrArg List.length q1
  have hq2 := congrArg List.length q2
  rw [List.length_replicate] at hq1 hq2
  have hadd := (iterations_add (samplesPushed bs) buffer.numSamples).1
  refine ⟨?_, ?_, ?_⟩
  · intro h
    have h0 := iterations_of_lt _ h
    exact ⟨List.length_eq_zero.1 (by omega), List.length_eq_zero.1 (by omega)⟩
  · intro h
    have h0 := iterations_of_lt _ h
    exact ⟨List.length_eq_zero.1 (by omega), List.length_eq_zero.1 (by omega)⟩
  · intro h hge
    have h0 := iterations_of_lt _ h
    have hpos := (iterations_pos_iff _).2 hge
    exact ⟨List.length_pos.1 (by omega), List.length_pos.1 (by omega)⟩

/-- Witness for `warm_up`: on a new processor, after 1000 samples no transform
has been computed, and a further block of 24 samples computes the first ones. -/
theorem warm_up_witness :
    (samplesPushed [((1 : ℚ), constantBuffer 2 1000 (1 : ℚ))] < fftSize
      ∧ fftSize ≤ samplesPushed [((1 : ℚ), constantBuffer 2 1000 (1 : ℚ))]
          + (constantBuffer 2 24 (1 : ℚ)).numSamples)
    ∧ (fftLogs testEnv construct [((1 : ℚ), constantBuffer 2 1000 (1 : ℚ))] = []
      ∧ sineLogs testEnv construct [((1 : ℚ), constantBuffer 2 1000 (1 : ℚ))] = [])
    ∧ ((processBlockLog testEnv
          (processBlocks testEnv construct [((1 : ℚ), constantBuffer 2 1000 (1 : ℚ))]) 1
          (constantBuffer 2 24 1)).fftLog ≠ []
      ∧ (processBlockLog testEnv
          (processBlocks testEnv construct [((1 : ℚ), constantBuffer 2 1000 (1 : ℚ))]) 1
          (constantBuffer 2 24 1)).sineLog ≠ []) := by
  have e1 : samplesPushed [((1 : ℚ), constantBuffer 2 1000 (1 : ℚ))] = 1000 := rfl
  have e2 : (constantBuffer 2 24 (1 : ℚ)).numSamples = 24 := rfl
  have h1 : samplesPushed [((1 : ℚ), constantBuffer 2 1000 (1 : ℚ))] < fftSize := by
    rw [e1, fftSize_eq]
    omega
  have h2 : fftSize ≤ samplesPushed [((1 : ℚ), constantBuffer 2 1000 (1 : ℚ))]
      + (constantBuffer 2 24 (1 : ℚ)).numSamples := by
    rw [e1, e2, fftSize_eq]
  have h := warm_up testEnv construct (Or.inl rfl) [((1 : ℚ), constantBuffer 2 1000 (1 : ℚ))] 1
    (constantBuffer 2 24 1)
  exact ⟨⟨h1, h2⟩, h.1 h1, h.2.2 h1 h2⟩

end TelevisionAudioProcessor

/-! ## The analysed frame -/

theorem lastSamples_track {α : Type} (h p : List α) (c n : Nat) (hc : c ≤ h.length)
    (hlen : n ≤ (h.drop c ++ p).length) :
    lastSamples n (h.drop c ++ p) = lastSamples n (h ++ p) := by
  rw [← List.drop_append_of_le_length hc]
  rw [← List.drop_append_of_le_length hc, List.length_drop] at hlen
  apply TelevisionAudioProcessor.lastSamples_drop
  have : c ≤ (h ++ p).length := by
    rw [List.length_append]
    omega
  omega

namespace TelevisionAudioProcessor

theorem audioHistory_append (bs cs : List (K × AudioBuffer K)) :
    audioHistory (bs ++ cs) = audioHistory bs ++ audioHistory cs := by
  induction bs with
  | nil => simp [audioHistory]
  | cons b bs ih => simp [audioHistory, ih]

theorem sineHistory_append (env : Env K) (bs cs : List (K × AudioBuffer K)) :
    ∀ s : TelevisionAudioProcessor K,
      sineHistory env s (bs ++ cs)
        = sineHistory env s bs ++ sineHistory env (processBlocks env s bs) cs := by
  induction bs with
  | nil =>
    intro s
    simp [sineHistory, processBlocks]
  | cons b bs ih =>
    intro s
    simp [sineHistory, ih, processBlocks_cons]

theorem audioHistory_snoc (bs : List (K × AudioBuffer K)) (b : K × AudioBuffer K) :
    audioHistory (bs ++ [b]) = audioHistory bs ++ pushedAudio b.2 := by
  simp [audioHistory_append, audioHistory]

theorem sineHistory_snoc (env : Env K) (s : TelevisionAudioProcessor K)
    (bs : List (K × AudioBuffer K)) (b : K × AudioBuffer K) :
    sineHistory env s (bs ++ [b])
      = sineHistory env s bs ++ pushedSine env (processBlocks env s bs) b.1 b.2 := by
  simp [sineHistory_append, sineHistory]

/-- The spectrum one pass stores, in terms of the frame, the window and the transform. -/
theorem passSpectrum_eq (env : Env K) (fifo : List K) (hlen : fftSize ≤ fifo.length)
    (hw : fftSize ≤ env.windowTable.length)
    (hT : ∀ d, (env.transform d).length = d.length) :
    passSpectrum env fifo
      = (env.transform (windowedFrame env (lastSamples fftSize fifo))).take numBins := by
  unfold passSpectrum
  rw [fillFFTData_of_le fifo hlen,
    multiplyWithWindowingTable_frame env _ (length_lastSamples _ _ hlen) hw]
  apply publish_of_le
  rw [hT, windowedFrame, List.length_append, List.length_replicate, numBins_eq, fftSize_eq]
  omega

/-- What the transforms of one call analysed and stored, given the track's
history `h` before the call and the samples `p` the call pushes. -/
theorem records_of_call (env : Env K) (h p fifo : List K) (c k : Nat) (log : List (FFTRecord K))
    (hfifo : fifo = h.drop c) (hc : c ≤ h.length)
    (hlog : log = List.replicate k
      { fftData := fillFFTData (fifo ++ p), published := passSpectrum env (fifo ++ p) })
    (hk : k = iterations (fifo ++ p).length) :
    (∀ r ∈ log, r.frame = lastSamples fftSize (h ++ p))
    ∧ (log ≠ [] → fftSize ≤ (h ++ p).length
        ∧ passSpectrum env (fifo ++ p) = passSpectrum env (h ++ p)) := by
  have hpos : log ≠ [] → fftSize ≤ (fifo ++ p).length := by
    intro hne
    have : 0 < log.length := List.length_pos.2 hne
    rw [hlog, List.length_replicate, hk] at this
    exact (iterations_pos_iff _).1 this
  constructor
  · intro r hr
    have hge := hpos (List.ne_nil_of_mem hr)
    rw [hlog] at hr
    rw [List.eq_of_mem_replicate hr, FFTRecord.frame, frame_fillFFTData _ hge]
    subst hfifo
    exact lastSamples_track h p c fftSize hc hge
  · intro hne
    have hge := hpos hne
    subst hfifo
    have hge2 : fftSize ≤ (h ++ p).length := by
      rw [List.length_append, List.length_drop] at hge
      rw [List.length_append]
      omega
    refine ⟨hge2, ?_⟩
    unfold passSpectrum
    rw [fillFFTData_of_le _ hge, fillFFTData_of_le _ hge2, lastSamples_track h p c fftSize hc hge]

end TelevisionAudioProcessor

namespace TelevisionAudioProcessor

/-- Claim C3 (most-recent window). From a freshly constructed or reset
processor and for every run of blocks: each transform computed in a
`processBlock` call analyses exactly the last `fftSize` samples pushed to its
track since the reset, in arrival order, and the spectrum then returned by the
getter is the first `numBins` outputs of the transform applied to that frame
multiplied entry by entry by the window table (followed by the zero upper half
of the working buffer).  The window table has at least `fftSize` entries and
the transform works in place. -/
theorem most_recent_window (env : Env K) (hw : fftSize ≤ env.windowTable.length)
    (hT : ∀ d, (env.transform d).length = d.length)
    (s0 : TelevisionAudioProcessor K)
    (hfresh : s0 = construct ∨ ∃ s sr, s0 = prepareToPlay s sr)
    (bs : List (K × AudioBuffer K)) (level : K) (buffer : AudioBuffer K) :
    (∀ r ∈ (processBlockLog env (processBlocks env s0 bs) level buffer).fftLog,
        r.frame = lastSamples fftSize (audioHistory (bs ++ [(level, buffer)]))
        ∧ r.frame.length = fftSize)
    ∧ ((processBlockLog env (processBlocks env s0 bs) level buffer).fftLog ≠ [] →
        (processBlockLog env (processBlocks env s0 bs) level buffer).state.getLatestSpectrum
          = (env.transform (windowedFrame env
              (lastSamples fftSize (audioHistory (bs ++ [(level, buffer)]))))).take numBins)
    ∧ (∀ r ∈ (processBlockLog env (processBlocks env s0 bs) level buffer).sineLog,
        r.frame = lastSamples fftSize (sineHistory env s0 (bs ++ [(level, buffer)]))
        ∧ r.frame.length = fftSize)
    ∧ ((processBlockLog env (processBlocks env s0 bs) level buffer).sineLog ≠ [] →
        (processBlockLog env (processBlocks env s0 bs) level buffer).state.getLatestSineSpectrum
          = (env.transform (windowedFrame env
              (lastSamples fftSize (sineHistory env s0 (bs ++ [(level, buffer)]))))).take
                numBins) := by
  obtain ⟨hm, hs, hc⟩ := reset_of_fresh s0 hfresh
  obtain ⟨r1, r2, r3, _⟩ := run_from_reset env s0 hm hs hc bs
  obtain ⟨q1, q2, _, _, _, q6, q7, _⟩ :=
    processBlockLog_spec env (processBlocks env s0 bs) level buffer r1
  have hca : hopSize * iterations (samplesPushed bs) ≤ (audioHistory bs).length := by
    rw [length_audioHistory]
    exact hop_iterations_le _
  have hcs : hopSize * iterations (samplesPushed bs) ≤ (sineHistory env s0 bs).length := by
    rw [length_sineHistory]
    exact hop_iterations_le _
  obtain ⟨fa, ga⟩ := records_of_call env (audioHistory bs) (pushedAudio buffer) _ _ _ _
    r2 hca q1 rfl
  obtain ⟨fs, gs⟩ := records_of_call env (sineHistory env s0 bs)
    (pushedSine env (processBlocks env s0 bs) level buffer) _ _ _ _ r3 hcs q2 rfl
  rw [audioHistory_snoc, sineHistory_snoc]
  refine ⟨?_, ?_, ?_, ?_⟩
  · intro r hr
    have hge := (ga (List.ne_nil_of_mem hr)).1
    rw [fa r hr]
    exact ⟨rfl, length_lastSamples _ _ hge⟩
  · intro hne
    obtain ⟨hge, hp⟩ := ga hne
    have hk : iterations ((processBlocks env s0 bs).monoFifo ++ pushedAudio buffer).length ≠ 0 := by
      intro h0
      apply hne
      rw [q1, h0]
      rfl
    rw [getLatestSpectrum, q6, if_neg hk, hp, passSpectrum_eq env _ hge hw hT]
  · intro r hr
    have hge := (gs (List.ne_nil_of_mem hr)).1
    rw [fs r hr]
    exact ⟨rfl, length_lastSamples _ _ hge⟩
  · intro hne
    obtain ⟨hge, hp⟩ := gs hne
    have hk : iterations ((processBlocks env s0 bs).sineFifo
        ++ pushedSine env (processBlocks env s0 bs) level buffer).length ≠ 0 := by
      intro h0
      apply hne
      rw [q2, h0]
      rfl
    rw [getLatestSineSpectrum, q7, if_neg hk, hp, passSpectrum_eq env _ hge hw hT]

end TelevisionAudioProcessor

namespace TelevisionAudioProcessor

/-- Transforms computed by one call after a run from a reset, counted. -/
theorem call_log_lengths (env : Env K) (s0 : TelevisionAudioProcessor K)
    (hm : s0.monoFifo = []) (hs : s0.sineFifo = []) (hc : s0.samplesSinceLastFFT = 0)
    (bs : List (K × AudioBuffer K)) (level : K) (buffer : AudioBuffer K) :
    (processBlockLog env (processBlocks env s0 bs) level buffer).fftLog.length
        + iterations (samplesPushed bs) = iterations (samplesPushed bs + buffer.numSamples)
    ∧ (processBlockLog env (processBlocks env s0 bs) level buffer).sineLog.length
        + iterations (samplesPushed bs) = iterations (samplesPushed bs + buffer.numSamples) := by
  obtain ⟨r1, _⟩ := run_from_reset env s0 hm hs hc bs
  obtain ⟨la, ls⟩ := lengths_after_run env s0 hm hs hc bs level buffer
  obtain ⟨q1, q2, _⟩ := processBlockLog_spec env (processBlocks env s0 bs) level buffer r1
  rw [la] at q1
  rw [ls] at q2
  have hq1 := congrArg List.length q1
  have hq2 := congrArg List.length q2
  rw [List.length_replicate] at hq1 hq2
  have hadd := (iterations_add (samplesPushed bs) buffer.numSamples).1
  omega

theorem iterations_fftSize : iterations fftSize = 1 := by
  unfold iterations
  rw [fftSize_eq, hopSize_eq]
  rfl

/-- On a new processor, one block of `fftSize` samples computes one transform per track. -/
theorem first_call_logs (env : Env K) (level : K) (buffer : AudioBuffer K)
    (h : buffer.numSamples = fftSize) :
    (processBlockLog env construct level buffer).fftLog ≠ []
    ∧ (processBlockLog env construct level buffer).sineLog ≠ [] := by
  have hl := call_log_lengths env (construct : TelevisionAudioProcessor K) rfl rfl rfl []
    level buffer
  have e : samplesPushed ([] : List (K × AudioBuffer K)) = 0 := rfl
  have e2 : processBlocks env (construct : TelevisionAudioProcessor K) [] = construct := rfl
  rw [e, e2, h, Nat.zero_add, iterations_zero, iterations_fftSize] at hl
  exact ⟨List.length_pos.1 (by have := hl.1; omega), List.length_pos.1 (by have := hl.2; omega)⟩

theorem length_passSpectrum (env : Env K) (fifo : List K) :
    (passSpectrum env fifo).length = numBins := by
  unfold passSpectrum
  exact length_publish _ _

/-- Both stores keep `numBins` entries along every run. -/
theorem latest_length_run (env : Env K) (bs : List (K × AudioBuffer K)) :
    ∀ s : TelevisionAudioProcessor K,
      s.samplesSinceLastFFT = (s.monoFifo.length : Int) →
      s.latestMagnitudes.length = numBins → s.latestSineMagnitudes.length = numBins →
      (processBlocks env s bs).latestMagnitudes.length = numBins
      ∧ (processBlocks env s bs).latestSineMagnitudes.length = numBins := by
  induction bs with
  | nil =>
    intro s _ h1 h2
    exact ⟨h1, h2⟩
  | cons b bs ih =>
    intro s hinv h1 h2
    obtain ⟨_, _, _, q4, _, q6, q7, _⟩ := processBlockLog_spec env s b.1 b.2 hinv
    rw [processBlocks_cons]
    apply ih _ q4
    · show (processBlockLog env s b.1 b.2).state.latestMagnitudes.length = numBins
      rw [q6]
      split
      · exact h1
      · exact length_passSpectrum _ _
    · show (processBlockLog env s b.1 b.2).state.latestSineMagnitudes.length = numBins
      rw [q7]
      split
      · exact h2
      · exact length_passSpectrum _ _

/-- Witness for `most_recent_window`: on a new processor one block of `fftSize`
samples is analysed as a whole; the test environment has an in-place transform
and a window table of `fftSize + 1` entries. -/
theorem most_recent_window_witness :
    (fftSize ≤ testEnv.windowTable.length
      ∧ (∀ d, (testEnv.transform d).length = d.length)
      ∧ (processBlockLog testEnv (processBlocks testEnv construct []) 1
          (constantBuffer 2 fftSize 1)).fftLog ≠ [])
    ∧ (processBlockLog testEnv (processBlocks testEnv construct []) 1
          (constantBuffer 2 fftSize 1)).state.getLatestSpectrum
        = (testEnv.transform (windowedFrame testEnv
            (lastSamples fftSize
              (audioHistory ([] ++ [((1 : ℚ), constantBuffer 2 fftSize (1 : ℚ))]))))).take
                numBins := by
  have hw : fftSize ≤ testEnv.windowTable.length := by
    simp [testEnv]
  have hT : ∀ d, (testEnv.transform d).length = d.length := fun _ => rfl
  have hne := (first_call_logs testEnv 1 (constantBuffer 2 fftSize (1 : ℚ)) rfl).1
  have h := most_recent_window testEnv hw hT construct (Or.inl rfl) [] 1
    (constantBuffer 2 fftSize 1)
  exact ⟨⟨hw, hT, hne⟩, h.2.1 hne⟩

/-! ## The spectrum stores -/

/-- Counterexample to claim C4 as stated: on a newly constructed processor both
getters return `numBins = 512` entries, not an empty vector. -/
theorem fetch_before_publish_counterexample :
    ((construct : TelevisionAudioProcessor ℚ).getLatestSpectrum.length = 512
      ∧ (construct : TelevisionAudioProcessor ℚ).getLatestSineSpectrum.length = 512)
    ∧ (construct : TelevisionAudioProcessor ℚ).getLatestSpectrum ≠ []
    ∧ (construct : TelevisionAudioProcessor ℚ).getLatestSineSpectrum ≠ [] := by
  have h1 : (construct : TelevisionAudioProcessor ℚ).getLatestSpectrum.length = 512 := by
    show (List.replicate numBins (0 : ℚ)).length = 512
    rw [List.length_replicate, numBins_eq]
  have h2 : (construct : TelevisionAudioProcessor ℚ).getLatestSineSpectrum.length = 512 := by
    show (List.replicate numBins (0 : ℚ)).length = 512
    rw [List.length_replicate, numBins_eq]
  refine ⟨⟨h1, h2⟩, ?_, ?_⟩
  · intro h
    rw [h] at h1
    simp at h1
  · intro h
    rw [h] at h2
    simp at h2

/-- Claim C4, amended. On a newly constructed processor, for as long as a track
has published no transform, its getter returns a vector of `numBins` zeros. -/
theorem fetch_before_publish (env : Env K) (bs : List (K × AudioBuffer K)) :
    (fftLogs env construct bs = [] →
      (processBlocks env construct bs).getLatestSpectrum = List.replicate numBins 0)
    ∧ (sineLogs env construct bs = [] →
      (processBlocks env construct bs).getLatestSineSpectrum = List.replicate numBins 0) := by
  obtain ⟨_, _, _, _, _, _, r7, r8⟩ :=
    run_from_reset env (construct : TelevisionAudioProcessor K) rfl rfl rfl bs
  constructor
  · intro h
    rw [getLatestSpectrum, r7 (by rw [h]; rfl)]
    rfl
  · intro h
    rw [getLatestSineSpectrum, r8 (by rw [h]; rfl)]
    rfl

end TelevisionAudioProcessor

namespace TelevisionAudioProcessor

theorem prepareToPlay_getLatestSpectrum (s : TelevisionAudioProcessor K) (sr : K) :
    (s.prepareToPlay sr).getLatestSpectrum = s.getLatestSpectrum := rfl

theorem prepareToPlay_getLatestSineSpectrum (s : TelevisionAudioProcessor K) (sr : K) :
    (s.prepareToPlay sr).getLatestSineSpectrum = s.getLatestSineSpectrum := rfl

/-- While fewer than `fftSize` samples have been delivered since a reset, no
track has computed a transform. -/
theorem logs_eq_nil_of_lt (env : Env K) (s0 : TelevisionAudioProcessor K)
    (hm : s0.monoFifo = []) (hs : s0.sineFifo = []) (hc : s0.samplesSinceLastFFT = 0)
    (bs : List (K × AudioBuffer K)) (h : samplesPushed bs < fftSize) :
    fftLogs env s0 bs = [] ∧ sineLogs env s0 bs = [] := by
  obtain ⟨_, _, _, r4, r5, _⟩ := run_from_reset env s0 hm hs hc bs
  have h0 := iterations_of_lt _ h
  exact ⟨List.length_eq_zero.1 (by omega), List.length_eq_zero.1 (by omega)⟩

theorem samplesPushed_short :
    samplesPushed [((1 : ℚ), constantBuffer 2 1000 (1 : ℚ))] < fftSize := by
  have e1 : samplesPushed [((1 : ℚ), constantBuffer 2 1000 (1 : ℚ))] = 1000 := rfl
  rw [e1, fftSize_eq]
  omega

/-- Witness for `fetch_before_publish`: after one block of 1000 samples on a new
processor no transform has been published and both getters return zeros. -/
theorem fetch_before_publish_witness :
    (fftLogs testEnv construct [((1 : ℚ), constantBuffer 2 1000 (1 : ℚ))] = []
      ∧ sineLogs testEnv construct [((1 : ℚ), constantBuffer 2 1000 (1 : ℚ))] = [])
    ∧ (processBlocks testEnv construct
          [((1 : ℚ), constantBuffer 2 1000 (1 : ℚ))]).getLatestSpectrum
        = List.replicate numBins 0
    ∧ (processBlocks testEnv construct
          [((1 : ℚ), constantBuffer 2 1000 (1 : ℚ))]).getLatestSineSpectrum
        = List.replicate numBins 0 := by
  have hl := logs_eq_nil_of_lt testEnv (construct : TelevisionAudioProcessor ℚ) rfl rfl rfl
    [((1 : ℚ), constantBuffer 2 1000 (1 : ℚ))] samplesPushed_short
  have h := fetch_before_publish testEnv [((1 : ℚ), constantBuffer 2 1000 (1 : ℚ))]
  exact ⟨hl, h.1 hl.1, h.2 hl.2⟩

/-- Counterexample to claim C5 as stated: a new processor is fed `fftSize`
samples, so that each track publishes a spectrum; after `prepareToPlay` both
getters still return `numBins = 512` entries, not an empty vector. -/
theorem reset_semantics_counterexample :
    (fftLogs testEnv construct warmRun ≠ [] ∧ sineLogs testEnv construct warmRun ≠ [])
    ∧ (((processBlocks testEnv construct warmRun).prepareToPlay 48000).getLatestSpectrum.length
        = 512
      ∧ ((processBlocks testEnv construct warmRun).prepareToPlay
          48000).getLatestSineSpectrum.length = 512)
    ∧ ((processBlocks testEnv construct warmRun).prepareToPlay 48000).getLatestSpectrum ≠ []
    ∧ ((processBlocks testEnv construct warmRun).prepareToPlay 48000).getLatestSineSpectrum
        ≠ [] := by
  have hw := logs_ne_nil_of_warm testEnv (construct : TelevisionAudioProcessor ℚ) rfl rfl rfl
    warmRun (Nat.le_of_eq samplesPushed_warmRun.symm)
  obtain ⟨l1, l2⟩ := latest_length_run testEnv warmRun (construct : TelevisionAudioProcessor ℚ)
    rfl (List.length_replicate _ _) (List.length_replicate _ _)
  have h1 : ((processBlocks testEnv construct warmRun).prepareToPlay
      48000).getLatestSpectrum.length = 512 := by
    rw [prepareToPlay_getLatestSpectrum, getLatestSpectrum, l1, numBins_eq]
  have h2 : ((processBlocks testEnv construct warmRun).prepareToPlay
      48000).getLatestSineSpectrum.length = 512 := by
    rw [prepareToPlay_getLatestSineSpectrum, getLatestSineSpectrum, l2, numBins_eq]
  refine ⟨hw, ⟨h1, h2⟩, ?_, ?_⟩
  · intro h
    rw [h] at h1
    simp at h1
  · intro h
    rw [h] at h2
    simp at h2

/-- Claim C5, amended. `prepareToPlay` leaves both stores untouched: right after
it each getter returns what it returned right before, and keeps returning that
vector for as long as fewer than `fftSize` samples have been delivered since. -/
theorem reset_semantics (env : Env K) (s : TelevisionAudioProcessor K) (sr : K)
    (bs : List (K × AudioBuffer K)) (h : samplesPushed bs < fftSize) :
    ((s.prepareToPlay sr).getLatestSpectrum = s.getLatestSpectrum
      ∧ (s.prepareToPlay sr).getLatestSineSpectrum = s.getLatestSineSpectrum)
    ∧ (processBlocks env (s.prepareToPlay sr) bs).getLatestSpectrum = s.getLatestSpectrum
    ∧ (processBlocks env (s.prepareToPlay sr) bs).getLatestSineSpectrum
        = s.getLatestSineSpectrum := by
  obtain ⟨_, _, _, r4, r5, _, r7, r8⟩ := run_from_reset env (s.prepareToPlay sr) rfl rfl rfl bs
  have h0 := iterations_of_lt _ h
  refine ⟨⟨rfl, rfl⟩, ?_, ?_⟩
  · rw [getLatestSpectrum, r7 (by omega)]
    rfl
  · rw [getLatestSineSpectrum, r8 (by omega)]
    rfl

/-- Witness for `reset_semantics`: a processor that has published spectra is
reset and fed 1000 samples; both getters still return the published spectra. -/
theorem reset_semantics_witness :
    samplesPushed [((1 : ℚ), constantBuffer 2 1000 (1 : ℚ))] < fftSize
    ∧ (processBlocks testEnv ((processBlocks testEnv construct warmRun).prepareToPlay 48000)
          [((1 : ℚ), constantBuffer 2 1000 (1 : ℚ))]).getLatestSpectrum
        = (processBlocks testEnv construct warmRun).getLatestSpectrum
    ∧ (processBlocks testEnv ((processBlocks testEnv construct warmRun).prepareToPlay 48000)
          [((1 : ℚ), constantBuffer 2 1000 (1 : ℚ))]).getLatestSineSpectrum
        = (processBlocks testEnv construct warmRun).getLatestSineSpectrum :=
  ⟨samplesPushed_short,
    (reset_semantics testEnv (processBlocks testEnv construct warmRun) 48000
      [((1 : ℚ), constantBuffer 2 1000 (1 : ℚ))] samplesPushed_short).2⟩

end TelevisionAudioProcessor

/-! ## Reset of the ingestion state -/

namespace TelevisionAudioProcessor

/-- Every transform of a run was computed by one of its calls. -/
theorem mem_fftLogs (env : Env K) (bs : List (K × AudioBuffer K)) :
    ∀ (s0 : TelevisionAudioProcessor K) (r : FFTRecord K), r ∈ fftLogs env s0 bs →
      ∃ pre b post, bs = pre ++ b :: post
        ∧ r ∈ (processBlockLog env (processBlocks env s0 pre) b.1 b.2).fftLog := by
  induction bs with
  | nil =>
    intro s0 r hr
    simp [fftLogs] at hr
  | cons b bs ih =>
    intro s0 r hr
    rw [fftLogs, List.mem_append] at hr
    rcases hr with hr | hr
    · exact ⟨[], b, bs, rfl, hr⟩
    · obtain ⟨pre, c, post, hbs, hmem⟩ := ih _ r hr
      refine ⟨b :: pre, c, post, ?_, ?_⟩
      · rw [hbs]
        rfl
      · rw [processBlocks_cons]
        exact hmem

theorem mem_sineLogs (env : Env K) (bs : List (K × AudioBuffer K)) :
    ∀ (s0 : TelevisionAudioProcessor K) (r : FFTRecord K), r ∈ sineLogs env s0 bs →
      ∃ pre b post, bs = pre ++ b :: post
        ∧ r ∈ (processBlockLog env (processBlocks env s0 pre) b.1 b.2).sineLog := by
  induction bs with
  | nil =>
    intro s0 r hr
    simp [sineLogs] at hr
  | cons b bs ih =>
    intro s0 r hr
    rw [sineLogs, List.mem_append] at hr
    rcases hr with hr | hr
    · exact ⟨[], b, bs, rfl, hr⟩
    · obtain ⟨pre, c, post, hbs, hmem⟩ := ih _ r hr
      refine ⟨b :: pre, c, post, ?_, ?_⟩
      · rw [hbs]
        rfl
      · rw [processBlocks_cons]
        exact hmem

/-- Frames analysed by one call that follows a run from a reset. -/
theorem call_frames (env : Env K) (s0 : TelevisionAudioProcessor K)
    (hm : s0.monoFifo = []) (hs : s0.sineFifo = []) (hc : s0.samplesSinceLastFFT = 0)
    (bs : List (K × AudioBuffer K)) (b : K × AudioBuffer K) :
    (∀ r ∈ (processBlockLog env (processBlocks env s0 bs) b.1 b.2).fftLog,
        fftSize ≤ (audioHistory (bs ++ [b])).length
        ∧ r.frame = lastSamples fftSize (audioHistory (bs ++ [b])))
    ∧ (∀ r ∈ (processBlockLog env (processBlocks env s0 bs) b.1 b.2).sineLog,
        fftSize ≤ (sineHistory env s0 (bs ++ [b])).length
        ∧ r.frame = lastSamples fftSize (sineHistory env s0 (bs ++ [b]))) := by
  obtain ⟨r1, r2, r3, _⟩ := run_from_reset env s0 hm hs hc bs
  obtain ⟨q1, q2, _⟩ := processBlockLog_spec env (processBlocks env s0 bs) b.1 b.2 r1
  have hca : hopSize * iterations (samplesPushed bs) ≤ (audioHistory bs).length := by
    rw [length_audioHistory]
    exact hop_iterations_le _
  have hcs : hopSize * iterations (samplesPushed bs) ≤ (sineHistory env s0 bs).length := by
    rw [length_sineHistory]
    exact hop_iterations_le _
  obtain ⟨fa, ga⟩ := records_of_call env (audioHistory bs) (pushedAudio b.2) _ _ _ _
    r2 hca q1 rfl
  obtain ⟨fs, gs⟩ := records_of_call env (sineHistory env s0 bs)
    (pushedSine env (processBlocks env s0 bs) b.1 b.2) _ _ _ _ r3 hcs q2 rfl
  rw [audioHistory_snoc, sineHistory_snoc]
  exact ⟨fun r hr => ⟨(ga (List.ne_nil_of_mem hr)).1, fa r hr⟩,
    fun r hr => ⟨(gs (List.ne_nil_of_mem hr)).1, fs r hr⟩⟩

/-- Claim C6 (reset of ingestion state). From every state `prepareToPlay`
leaves both accumulators empty and the hop counter at zero; and every
transform computed afterwards, in any run of blocks, analyses a frame of
`fftSize` samples that are the last `fftSize` samples pushed to its track by
the calls made since the reset, so no earlier sample is in it. -/
theorem reset_ingestion (env : Env K) (s : TelevisionAudioProcessor K) (sr : K) :
    ((s.prepareToPlay sr).monoFifo = [] ∧ (s.prepareToPlay sr).sineFifo = []
      ∧ (s.prepareToPlay sr).samplesSinceLastFFT = 0)
    ∧ (∀ bs, ∀ r ∈ fftLogs env (s.prepareToPlay sr) bs,
        ∃ pre post, bs = pre ++ post ∧ fftSize ≤ (audioHistory pre).length
          ∧ r.frame = lastSamples fftSize (audioHistory pre))
    ∧ (∀ bs, ∀ r ∈ sineLogs env (s.prepareToPlay sr) bs,
        ∃ pre post, bs = pre ++ post
          ∧ fftSize ≤ (sineHistory env (s.prepareToPlay sr) pre).length
          ∧ r.frame = lastSamples fftSize (sineHistory env (s.prepareToPlay sr) pre)) := by
  refine ⟨⟨rfl, rfl, rfl⟩, ?_, ?_⟩
  · intro bs r hr
    obtain ⟨pre, b, post, hbs, hmem⟩ := mem_fftLogs env bs _ r hr
    obtain ⟨h1, h2⟩ := (call_frames env (s.prepareToPlay sr) rfl rfl rfl pre b).1 r hmem
    exact ⟨pre ++ [b], post, by rw [hbs]; simp, h1, h2⟩
  · intro bs r hr
    obtain ⟨pre, b, post, hbs, hmem⟩ := mem_sineLogs env bs _ r hr
    obtain ⟨h1, h2⟩ := (call_frames env (s.prepareToPlay sr) rfl rfl rfl pre b).2 r hmem
    exact ⟨pre ++ [b], post, by rw [hbs]; simp, h1, h2⟩

/-- Witness for `reset_ingestion`: a processor that has analysed `fftSize`
samples is reset and fed `fftSize` samples again; the transform computed then
has a frame taken from the samples of the second run. -/
theorem reset_ingestion_witness :
    ∃ r ∈ fftLogs testEnv ((processBlocks testEnv construct warmRun).prepareToPlay 48000) warmRun,
      ∃ pre post, warmRun = pre ++ post ∧ fftSize ≤ (audioHistory pre).length
        ∧ r.frame = lastSamples fftSize (audioHistory pre) := by
  have hw := (logs_ne_nil_of_warm testEnv
    ((processBlocks testEnv construct warmRun).prepareToPlay 48000) rfl rfl rfl
    warmRun (Nat.le_of_eq samplesPushed_warmRun.symm)).1
  obtain ⟨r, hr⟩ := List.exists_mem_of_ne_nil _ hw
  exact ⟨r, hr, (reset_ingestion testEnv (processBlocks testEnv construct warmRun) 48000).2.1
    warmRun r hr⟩

end TelevisionAudioProcessor

/-! ## Mixdown -/

namespace TelevisionAudioProcessor

/-- Claim C7 (mixdown). For a block of `n` samples `pushAudioToFifo` appends
exactly `n` samples to the primary accumulator and leaves the earlier contents
in place: with two channels the appended samples are the means
`(left[i] + right[i]) / 2`, with one channel they are `left` itself. -/
theorem mixdown (s : TelevisionAudioProcessor K) (left right : List K) (n : Nat)
    (hl : left.length = n) (hr : right.length = n) :
    (s.pushAudioToFifo left (some right) n).monoFifo
        = s.monoFifo ++ List.zipWith (fun l r => (l + r) / 2) left right
    ∧ (List.zipWith (fun l r => (l + r) / 2) left right).length = n
    ∧ (s.pushAudioToFifo left none n).monoFifo = s.monoFifo ++ left := by
  refine ⟨?_, by simp [hl, hr], ?_⟩
  · rw [pushAudioToFifo_monoFifo]
    congr 1
    apply List.ext_getElem
    · simp [hl, hr]
    · intro i h1 h2
      simp only [List.length_map, List.length_range] at h1
      have hi : i < left.length := by omega
      have hi2 : i < right.length := by omega
      simp only [List.getElem_map, List.getElem_range, List.getElem_zipWith, mixSample,
        List.getD_eq_getElem _ _ hi, List.getD_eq_getElem _ _ hi2]
      ring
  · rw [pushAudioToFifo_monoFifo]
    congr 1
    have h := map_getD_range (0 : K) left 0 n (by omega)
    simp only [Nat.zero_add, List.drop_zero] at h
    rw [List.take_of_length_le (by omega)] at h
    exact h

/-- Witness for `mixdown`: the example `L = [1, 2, 3]`, `R = [3, 2, 1]`. -/
theorem mixdown_witness :
    ((construct : TelevisionAudioProcessor ℚ).pushAudioToFifo [1, 2, 3] (some [3, 2, 1]) 3).monoFifo
        = [2, 2, 2]
    ∧ ((construct : TelevisionAudioProcessor ℚ).pushAudioToFifo [1, 2, 3] none 3).monoFifo
        = [1, 2, 3] := by
  have h := mixdown (construct : TelevisionAudioProcessor ℚ) [1, 2, 3] [3, 2, 1] 3 rfl rfl
  constructor
  · rw [h.1]
    norm_num [construct]
  · rw [h.2.2]
    rfl

end TelevisionAudioProcessor

/-! ## Tone synthesis -/

namespace TelevisionAudioProcessor

/-- The primary analysis loop does not touch the tone state, whatever the hop counter. -/
theorem runFFTIfReadyLog_tone (env : Env K) (s : TelevisionAudioProcessor K) :
    (runFFTIfReadyLog env s).1.phase = s.phase
    ∧ (runFFTIfReadyLog env s).1.currentSR = s.currentSR
    ∧ (runFFTIfReadyLog env s).1.sineFifo = s.sineFifo := by
  generalize hn : s.monoFifo.length = n
  induction n using Nat.strong_induction_on generalizing s with
  | _ n ih =>
    subst hn
    rw [runFFTIfReadyLog]
    split
    · rename_i hcond
      have hlt : (s.monoFifo.drop hopSize).length < s.monoFifo.length := by
        have h1 := fftSize_eq
        have h2 := hopSize_eq
        have h3 : fftSize ≤ s.monoFifo.length := by exact_mod_cast hcond.2
        simp only [List.length_drop]
        omega
      simp only
      exact ih _ hlt _ rfl
    · exact ⟨rfl, rfl, rfl⟩

/-- The tone loop reads only `phase` and `currentSR` of the processor. -/
theorem toneLoop_congr (env : Env K) (level : K) (s1 s2 : TelevisionAudioProcessor K)
    (buffer : AudioBuffer K) (n : Nat) (hp : s1.phase = s2.phase)
    (hsr : s1.currentSR = s2.currentSR) :
    toneLoop env level s1 buffer n = toneLoop env level s2 buffer n := by
  unfold toneLoop
  rw [hp, hsr]

theorem toneLoop_zero (env : Env K) (level : K) (s : TelevisionAudioProcessor K)
    (buffer : AudioBuffer K) :
    (toneLoop env level s buffer 0).phase = s.phase := by
  simp [toneLoop, forLoop_zero]

theorem toneLoop_succ (env : Env K) (level : K) (s : TelevisionAudioProcessor K)
    (buffer : AudioBuffer K) (n : Nat) :
    toneLoop env level s buffer (n + 1)
      = toneBody env (level * 0.2) (env.twoPi * 440 / s.currentSR) buffer.getNumChannels n
          (toneLoop env level s buffer n) := by
  unfold toneLoop
  simp only
  rw [forLoop_succ]

/-- The phase after one more sample: advanced by the increment, and reduced by
`twoPi` once if that reaches `twoPi`. -/
theorem toneLoop_phase_succ (env : Env K) (level : K) (s : TelevisionAudioProcessor K)
    (buffer : AudioBuffer K) (n : Nat) :
    (toneLoop env level s buffer (n + 1)).phase
      = if (toneLoop env level s buffer n).phase + env.twoPi * 440 / s.currentSR ≥ env.twoPi
        then (toneLoop env level s buffer n).phase + env.twoPi * 440 / s.currentSR - env.twoPi
        else (toneLoop env level s buffer n).phase + env.twoPi * 440 / s.currentSR := by
  rw [toneLoop_succ]
  rfl

/-- Phase and sample rate after one `processBlock` call. -/
theorem processBlock_tone (env : Env K) (s : TelevisionAudioProcessor K) (level : K)
    (buffer : AudioBuffer K) :
    (processBlock env s level buffer).phase
        = (toneLoop env level s buffer buffer.numSamples).phase
    ∧ (processBlock env s level buffer).currentSR = s.currentSR := by
  obtain ⟨t1, t2, _⟩ := runFFTIfReadyLog_tone env (feedInput s buffer)
  have e1 : (feedInput s buffer).phase = s.phase := by rw [feedInput_eq]
  have e2 : (feedInput s buffer).currentSR = s.currentSR := by rw [feedInput_eq]
  have hstate : processBlock env s level buffer = (runSineFFTIfReadyLog env
    (feedSine env level (runFFTIfReadyLog env (feedInput s buffer)).1 buffer)).1 := rfl
  rw [hstate, runSineFFTIfReadyLog_eq, feedSine_eq]
  simp only
  rw [t2, e2, toneLoop_congr env level _ s buffer _ (t1.trans e1) (t2.trans e2)]
  exact ⟨rfl, rfl⟩

/-- One sample keeps the phase in `[0, twoPi)` when the increment is in `[0, twoPi]`. -/
theorem wrap_step (twoPi inc p : K) (h0 : 0 ≤ inc) (h1 : inc ≤ twoPi)
    (hp0 : 0 ≤ p) (hp1 : p < twoPi) :
    0 ≤ (if p + inc ≥ twoPi then p + inc - twoPi else p + inc)
    ∧ (if p + inc ≥ twoPi then p + inc - twoPi else p + inc) < twoPi := by
  split_ifs with h
  · constructor <;> linarith
  · constructor
    · linarith
    · exact lt_of_not_ge h

theorem phaseInc_bounds (twoPi sr : K) (hpi : 0 < twoPi) (hsr : 440 ≤ sr) :
    0 ≤ twoPi * 440 / sr ∧ twoPi * 440 / sr ≤ twoPi := by
  have hpos : (0 : K) < sr := by linarith
  constructor
  · positivity
  · rw [div_le_iff₀ hpos]
    nlinarith

/-- Within a block, the phase stays in `[0, twoPi)` after every sample. -/
theorem toneLoop_phase_bounds (env : Env K) (hpi : 0 < env.twoPi) (level : K)
    (s : TelevisionAudioProcessor K) (hsr : 440 ≤ s.currentSR)
    (hp : 0 ≤ s.phase ∧ s.phase < env.twoPi) (buffer : AudioBuffer K) (n : Nat) :
    0 ≤ (toneLoop env level s buffer n).phase
    ∧ (toneLoop env level s buffer n).phase < env.twoPi := by
  induction n with
  | zero =>
    rw [toneLoop_zero]
    exact hp
  | succ n ih =>
    rw [toneLoop_phase_succ]
    obtain ⟨b0, b1⟩ := phaseInc_bounds env.twoPi s.currentSR hpi hsr
    exact wrap_step _ _ _ b0 b1 ih.1 ih.2

/-- Along a run of blocks the sample rate stays and the phase stays in `[0, twoPi)`. -/
theorem processBlocks_phase_bounds (env : Env K) (hpi : 0 < env.twoPi)
    (bs : List (K × AudioBuffer K)) :
    ∀ s : TelevisionAudioProcessor K, 440 ≤ s.currentSR →
      (0 ≤ s.phase ∧ s.phase < env.twoPi) →
      (processBlocks env s bs).currentSR = s.currentSR
      ∧ 0 ≤ (processBlocks env s bs).phase
      ∧ (processBlocks env s bs).phase < env.twoPi := by
  induction bs with
  | nil =>
    intro s _ hp
    exact ⟨rfl, hp.1, hp.2⟩
  | cons b bs ih =>
    intro s hsr hp
    obtain ⟨t1, t2⟩ := processBlock_tone env s b.1 b.2
    have hb := toneLoop_phase_bounds env hpi b.1 s hsr hp b.2 b.2.numSamples
    rw [← t1] at hb
    have h := ih (processBlock env s b.1 b.2) (by rw [t2]; exact hsr) hb
    rw [processBlocks_cons]
    rw [t2] at h
    exact h

end TelevisionAudioProcessor

/-! ## Phase wrap -/

namespace TelevisionAudioProcessor

/-- Counterexample to claim C9 as stated, over the reals with `twoPi = 2π`:
after `prepareToPlay (220)` the increment is `4π`, so the first sample takes
the phase to `4π`, the single subtraction leaves `2π`, and `phase < 2π` fails. -/
theorem phase_wrap_counterexample :
    (processBlock
        { twoPi := 2 * Real.pi
          sin := Real.sin
          windowTable := []
          transform := fun d => d }
        ((construct : TelevisionAudioProcessor ℝ).prepareToPlay 220) 0
        (constantBuffer 1 1 0)).phase = 2 * Real.pi
    ∧ ¬ ((processBlock
        { twoPi := 2 * Real.pi
          sin := Real.sin
          windowTable := []
          transform := fun d => d }
        ((construct : TelevisionAudioProcessor ℝ).prepareToPlay 220) 0
        (constantBuffer 1 1 0)).phase < 2 * Real.pi) := by
  have hp : (processBlock
        { twoPi := 2 * Real.pi
          sin := Real.sin
          windowTable := []
          transform := fun d => d }
        ((construct : TelevisionAudioProcessor ℝ).prepareToPlay 220) 0
        (constantBuffer 1 1 0)).phase = 2 * Real.pi := by
    rw [(processBlock_tone _ _ _ _).1]
    have hn : (constantBuffer 1 1 (0 : ℝ)).numSamples = 0 + 1 := rfl
    rw [hn, toneLoop_phase_succ, toneLoop_zero]
    have h0 : ((construct : TelevisionAudioProcessor ℝ).prepareToPlay 220).phase = 0 := rfl
    have h1 : ((construct : TelevisionAudioProcessor ℝ).prepareToPlay 220).currentSR = 220 := rfl
    rw [h0, h1]
    have hpos := Real.pi_pos
    have hinc : (0 : ℝ) + 2 * Real.pi * 440 / 220 = 4 * Real.pi := by ring
    show (if (0 : ℝ) + 2 * Real.pi * 440 / 220 ≥ 2 * Real.pi
      then (0 : ℝ) + 2 * Real.pi * 440 / 220 - 2 * Real.pi
      else (0 : ℝ) + 2 * Real.pi * 440 / 220) = 2 * Real.pi
    rw [hinc, if_pos (by linarith)]
    ring
  exact ⟨hp, by rw [hp]; exact lt_irrefl _⟩

/-- Claim C9, amended. For `twoPi > 0` and every sample rate of at least 440 Hz
handed to `prepareToPlay`, for every run of blocks after that reset the phase
satisfies `0 ≤ phase < twoPi` after each sample of each block, and in the
state each `processBlock` call leaves. -/
theorem phase_wrap (env : Env K) (hpi : 0 < env.twoPi) (s : TelevisionAudioProcessor K)
    (sr : K) (hsr : 440 ≤ sr) (bs : List (K × AudioBuffer K)) (level : K)
    (buffer : AudioBuffer K) :
    (∀ j ≤ buffer.numSamples,
      0 ≤ (toneLoop env level
          (runFFTIfReady env (feedInput (processBlocks env (s.prepareToPlay sr) bs) buffer))
          buffer j).phase
      ∧ (toneLoop env level
          (runFFTIfReady env (feedInput (processBlocks env (s.prepareToPlay sr) bs) buffer))
          buffer j).phase < env.twoPi)
    ∧ 0 ≤ (processBlock env (processBlocks env (s.prepareToPlay sr) bs) level buffer).phase
    ∧ (processBlock env (processBlocks env (s.prepareToPlay sr) bs) level buffer).phase
        < env.twoPi := by
  obtain ⟨c1, c2, c3⟩ := processBlocks_phase_bounds env hpi bs (s.prepareToPlay sr) hsr
    ⟨le_refl _, hpi⟩
  have hsr2 : 440 ≤ (processBlocks env (s.prepareToPlay sr) bs).currentSR := by
    rw [c1]
    exact hsr
  obtain ⟨t1, t2, _⟩ := runFFTIfReadyLog_tone env
    (feedInput (processBlocks env (s.prepareToPlay sr) bs) buffer)
  have e1 : (feedInput (processBlocks env (s.prepareToPlay sr) bs) buffer).phase
      = (processBlocks env (s.prepareToPlay sr) bs).phase := by rw [feedInput_eq]
  have e2 : (feedInput (processBlocks env (s.prepareToPlay sr) bs) buffer).currentSR
      = (processBlocks env (s.prepareToPlay sr) bs).currentSR := by rw [feedInput_eq]
  refine ⟨?_, ?_⟩
  · intro j _
    rw [toneLoop_congr env level (runFFTIfReady env _) (processBlocks env (s.prepareToPlay sr) bs)
      buffer j (t1.trans e1) (t2.trans e2)]
    exact toneLoop_phase_bounds env hpi level _ hsr2 ⟨c2, c3⟩ buffer j
  · rw [(processBlock_tone env _ level buffer).1]
    exact toneLoop_phase_bounds env hpi level _ hsr2 ⟨c2, c3⟩ buffer buffer.numSamples

/-- Witness for `phase_wrap`: the test environment at 44100 Hz, after a run of
`fftSize` samples and a block of three more. -/
theorem phase_wrap_witness :
    ((0 : ℚ) < testEnv.twoPi ∧ (440 : ℚ) ≤ 44100)
    ∧ 0 ≤ (processBlock testEnv
        (processBlocks testEnv ((construct : TelevisionAudioProcessor ℚ).prepareToPlay 44100)
          warmRun) 1 (constantBuffer 2 3 1)).phase
    ∧ (processBlock testEnv
        (processBlocks testEnv ((construct : TelevisionAudioProcessor ℚ).prepareToPlay 44100)
          warmRun) 1 (constantBuffer 2 3 1)).phase < testEnv.twoPi := by
  have h1 : (0 : ℚ) < testEnv.twoPi := by
    show (0 : ℚ) < 6
    norm_num
  have h2 : (440 : ℚ) ≤ 44100 := by norm_num
  exact ⟨⟨h1, h2⟩, (phase_wrap testEnv h1 construct 44100 h2 warmRun 1 (constantBuffer 2 3 1)).2⟩

end TelevisionAudioProcessor

/-! ## Tone samples and the output buffer -/

theorem map_getD_range_self {α β : Type} (z : α) (l : List α) (g : α → β) :
    (List.range l.length).map (fun i => g (l.getD i z)) = l.map g := by
  apply List.ext_getElem
  · simp
  · intro i h1 h2
    simp only [List.length_map, List.length_range] at h1
    simp [List.getD_eq_getElem?_getD, List.getElem?_eq_getElem h1]

namespace TelevisionAudioProcessor

/-- The channel loop of lines 86-87 adds `x` to sample `i` of every channel. -/
theorem channelLoop_eq (b : AudioBuffer K) (i : Nat) (x : K) :
    forLoop b.getNumChannels (fun ch bb => bb.setSample ch i (bb.getSample ch i + x)) b
      = { b with channels := b.channels.map (fun c => c.set i (c.getD i 0 + x)) } := by
  have hlift : ∀ m, forLoop m (fun ch bb => bb.setSample ch i (bb.getSample ch i + x)) b
      = { b with
          channels := forLoop m
            (fun ch chs => chs.set ch ((chs.getD ch []).set i ((chs.getD ch []).getD i 0 + x)))
            b.channels } := by
    intro m
    induction m with
    | zero => simp [forLoop_zero]
    | succ m ih =>
      rw [forLoop_succ, ih, forLoop_succ]
      rfl
  rw [hlift]
  rw [forLoop_set_slice ([] : List K) 0 (fun _ c => c.set i (c.getD i 0 + x)) b.channels _
    (by intro ch d _; simp) b.getNumChannels (by simp [AudioBuffer.getNumChannels])]
  simp only [List.take_zero, List.nil_append, Nat.zero_add, AudioBuffer.getNumChannels,
    List.drop_length, List.append_nil]
  rw [map_getD_range_self ([] : List K) b.channels (fun c => c.set i (c.getD i 0 + x))]

/-- Closed form of the tone loop after `j ≤ numSamples` samples: `sineBuffer`
holds the first `j` tone samples, and every channel has them added in place. -/
theorem toneLoop_closed (env : Env K) (level : K) (s : TelevisionAudioProcessor K)
    (buffer : AudioBuffer K) (j : Nat) (hj : j ≤ buffer.numSamples) :
    (toneLoop env level s buffer j).sineBuffer
        = (List.range j).map
            (fun i => env.sin (toneLoop env level s buffer i).phase * (level * 0.2))
          ++ List.replicate (buffer.numSamples - j) 0
    ∧ (toneLoop env level s buffer j).buffer
        = { buffer with
            channels := buffer.channels.map (fun c =>
              forLoop j (fun i d => d.set i (d.getD i 0
                + env.sin (toneLoop env level s buffer i).phase * (level * 0.2))) c) } := by
  induction j with
  | zero =>
    constructor
    · simp [toneLoop, forLoop_zero]
    · simp [toneLoop, forLoop_zero]
  | succ j ih =>
    obtain ⟨ih1, ih2⟩ := ih (by omega)
    rw [toneLoop_succ]
    constructor
    · show (toneLoop env level s buffer j).sineBuffer.set j
          (env.sin (toneLoop env level s buffer j).phase * (level * 0.2)) = _
      rw [ih1, List.set_append, if_neg (by simp)]
      have hk : buffer.numSamples - j = (buffer.numSamples - (j + 1)) + 1 := by omega
      rw [hk, List.replicate_succ]
      simp [List.range_succ]
    · show forLoop buffer.getNumChannels
          (fun ch b => b.setSample ch j (b.getSample ch j
            + env.sin (toneLoop env level s buffer j).phase * (level * 0.2)))
          (toneLoop env level s buffer j).buffer = _
      have hnc : buffer.getNumChannels = (toneLoop env level s buffer j).buffer.getNumChannels := by
        rw [ih2]
        simp [AudioBuffer.getNumChannels]
      rw [hnc, channelLoop_eq, ih2]
      simp only [List.map_map]
      congr 1
      apply List.map_congr_left
      intro c _
      simp only [Function.comp]
      rw [forLoop_succ]

/-- Reading one sample of a buffer whose channels were all rewritten by `g`. -/
theorem getSample_map (b : AudioBuffer K) (g : List K → List K) (ch i : Nat)
    (hch : ch < b.getNumChannels) :
    AudioBuffer.getSample { b with channels := b.channels.map g } ch i
      = (g (b.channels.getD ch [])).getD i 0 := by
  unfold AudioBuffer.getNumChannels at hch
  simp [AudioBuffer.getSample, List.getD_eq_getElem?_getD, List.getElem?_eq_getElem hch]

/-- Adding tone samples `f 0 .. f (n - 1)` in place to a channel of at least `n` samples. -/
theorem addTone_getD (f : Nat → K) (c : List K) (n i : Nat) (hn : n ≤ c.length) (hi : i < n) :
    (forLoop n (fun k d => d.set k (d.getD k 0 + f k)) c).getD i 0 = c.getD i 0 + f i := by
  rw [forLoop_set_slice (0 : K) 0 (fun k y => y + f k) c _ (by intro k d _; simp) n (by omega)]
  simp only [List.take_zero, List.nil_append, Nat.zero_add]
  rw [List.getD_append _ _ _ _ (by simpa using hi)]
  simp [List.getD_eq_getElem?_getD, List.getElem?_eq_getElem (show i < (List.range n).length by simpa using hi)]

end TelevisionAudioProcessor

namespace TelevisionAudioProcessor

/-- The tone loop of `processBlock` runs as if on the state at block entry. -/
theorem toneLoop_entry (env : Env K) (level : K) (s : TelevisionAudioProcessor K)
    (buffer : AudioBuffer K) (j : Nat) :
    toneLoop env level (runFFTIfReady env (feedInput s buffer)) buffer j
      = toneLoop env level s buffer j := by
  obtain ⟨t1, t2, _⟩ := runFFTIfReadyLog_tone env (feedInput s buffer)
  have e1 : (feedInput s buffer).phase = s.phase := by rw [feedInput_eq]
  have e2 : (feedInput s buffer).currentSR = s.currentSR := by rw [feedInput_eq]
  exact toneLoop_congr env level _ s buffer j (t1.trans e1) (t2.trans e2)

/-- Claim C8 (tone synthesis). For a block of `numSamples` samples in any number
of channels (each channel holding `numSamples` samples, sample rate not zero),
with `p i` the phase before sample `i`: `p 0` is the phase at block entry, each
sample advances the phase by `twoPi * 440 / currentSR` (less `twoPi` when that
reaches `twoPi`), `processBlock` leaves `input + sin (p i) * sineLevel * 0.2` in
every channel at every index `i`, hands exactly these tone samples, in order,
to the tone accumulator, and leaves the phase `p numSamples`. -/
theorem tone_synthesis (env : Env K) (s : TelevisionAudioProcessor K) (level : K)
    (buffer : AudioBuffer K)
    (hch : ∀ c ∈ buffer.channels, c.length = buffer.numSamples)
    (_hsr : s.currentSR ≠ 0) :
    (toneLoop env level (runFFTIfReady env (feedInput s buffer)) buffer 0).phase = s.phase
    ∧ (∀ i,
        (toneLoop env level (runFFTIfReady env (feedInput s buffer)) buffer (i + 1)).phase
          = if (toneLoop env level (runFFTIfReady env (feedInput s buffer)) buffer i).phase
                + env.twoPi * 440 / s.currentSR ≥ env.twoPi
            then (toneLoop env level (runFFTIfReady env (feedInput s buffer)) buffer i).phase
                + env.twoPi * 440 / s.currentSR - env.twoPi
            else (toneLoop env level (runFFTIfReady env (feedInput s buffer)) buffer i).phase
                + env.twoPi * 440 / s.currentSR)
    ∧ (∀ ch < buffer.getNumChannels, ∀ i < buffer.numSamples,
        (processBlockLog env s level buffer).buffer.getSample ch i
          = buffer.getSample ch i
            + env.sin (toneLoop env level (runFFTIfReady env (feedInput s buffer))
                buffer i).phase * level * 0.2)
    ∧ (feedSine env level (runFFTIfReady env (feedInput s buffer)) buffer).sineFifo
        = s.sineFifo ++ (List.range buffer.numSamples).map (fun i =>
            env.sin (toneLoop env level (runFFTIfReady env (feedInput s buffer))
              buffer i).phase * level * 0.2)
    ∧ (processBlock env s level buffer).phase
        = (toneLoop env level (runFFTIfReady env (feedInput s buffer)) buffer
            buffer.numSamples).phase := by
  have hst := toneLoop_entry env level s buffer
  simp only [hst]
  obtain ⟨c1, c2⟩ := toneLoop_closed env level s buffer buffer.numSamples (le_refl _)
  refine ⟨toneLoop_zero env level s buffer, fun i => toneLoop_phase_succ env level s buffer i,
    ?_, ?_, (processBlock_tone env s level buffer).1⟩
  · intro ch hc i hi
    have hb : (processBlockLog env s level buffer).buffer
        = (toneLoop env level (runFFTIfReady env (feedInput s buffer)) buffer
            buffer.numSamples).buffer := rfl
    rw [hb, hst, c2, getSample_map _ _ _ _ hc]
    have hmem : buffer.channels.getD ch [] ∈ buffer.channels := by
      unfold AudioBuffer.getNumChannels at hc
      rw [List.getD_eq_getElem _ _ hc]
      exact List.getElem_mem hc
    rw [addTone_getD _ _ _ _ (Nat.le_of_eq (hch _ hmem).symm) hi, AudioBuffer.getSample,
      mul_assoc]
  · have hsf : (runFFTIfReady env (feedInput s buffer)).sineFifo = s.sineFifo := by
      have h3 := (runFFTIfReadyLog_tone env (feedInput s buffer)).2.2
      rw [feedInput_eq] at h3 ⊢
      exact h3
    rw [feedSine_eq]
    simp only [hst, hsf, c1, Nat.sub_self, List.replicate_zero, List.append_nil, mul_assoc]

end TelevisionAudioProcessor

namespace TelevisionAudioProcessor

/-- Witness for `tone_synthesis`: a stereo block of three samples on a new
processor, in the test environment. -/
theorem tone_synthesis_witness :
    ((∀ c ∈ (constantBuffer 2 3 (1 : ℚ)).channels,
        c.length = (constantBuffer 2 3 (1 : ℚ)).numSamples)
      ∧ (construct : TelevisionAudioProcessor ℚ).currentSR ≠ 0)
    ∧ (feedSine testEnv 1
          (runFFTIfReady testEnv (feedInput construct (constantBuffer 2 3 (1 : ℚ))))
          (constantBuffer 2 3 (1 : ℚ))).sineFifo
        = (construct : TelevisionAudioProcessor ℚ).sineFifo
          ++ (List.range (constantBuffer 2 3 (1 : ℚ)).numSamples).map (fun i =>
            testEnv.sin (toneLoop testEnv 1
              (runFFTIfReady testEnv (feedInput construct (constantBuffer 2 3 (1 : ℚ))))
              (constantBuffer 2 3 (1 : ℚ)) i).phase * 1 * 0.2) := by
  have h1 : ∀ c ∈ (constantBuffer 2 3 (1 : ℚ)).channels,
      c.length = (constantBuffer 2 3 (1 : ℚ)).numSamples := by
    intro c hc
    have hc2 : c ∈ List.replicate 2 (List.replicate 3 (1 : ℚ)) := hc
    rw [List.eq_of_mem_replicate hc2]
    rfl
  have h2 : (construct : TelevisionAudioProcessor ℚ).currentSR ≠ 0 := by
    show (44100 : ℚ) ≠ 0
    norm_num
  exact ⟨⟨h1, h2⟩, (tone_synthesis testEnv construct 1 (constantBuffer 2 3 (1 : ℚ)) h1 h2).2.2.2.1⟩

end TelevisionAudioProcessor

/-! ## Bounded accumulators -/

namespace TelevisionAudioProcessor

/-- Claim C11 (bounded accumulator). From a freshly constructed or reset
processor and for every run of blocks, after each `processBlock` call (push
followed by the ready step) both accumulators hold fewer than `fftSize`
samples, and on a track that has computed a transform the accumulator holds at
least `fftSize - hopSize` samples. -/
theorem bounded_accumulator (env : Env K) (s0 : TelevisionAudioProcessor K)
    (hfresh : s0 = construct ∨ ∃ s sr, s0 = prepareToPlay s sr)
    (bs : List (K × AudioBuffer K)) :
    ((processBlocks env s0 bs).monoFifo.length < fftSize
      ∧ (processBlocks env s0 bs).sineFifo.length < fftSize)
    ∧ (fftLogs env s0 bs ≠ [] → fftSize - hopSize ≤ (processBlocks env s0 bs).monoFifo.length)
    ∧ (sineLogs env s0 bs ≠ [] →
        fftSize - hopSize ≤ (processBlocks env s0 bs).sineFifo.length) := by
  obtain ⟨hm, hs, hc⟩ := reset_of_fresh s0 hfresh
  obtain ⟨_, r2, r3, r4, r5, _⟩ := run_from_reset env s0 hm hs hc bs
  have la : (processBlocks env s0 bs).monoFifo.length
      = samplesPushed bs - hopSize * iterations (samplesPushed bs) := by
    rw [r2, List.length_drop, length_audioHistory]
  have ls : (processBlocks env s0 bs).sineFifo.length
      = samplesPushed bs - hopSize * iterations (samplesPushed bs) := by
    rw [r3, List.length_drop, length_sineHistory]
  rw [la, ls]
  refine ⟨⟨length_after_lt _, length_after_lt _⟩, ?_, ?_⟩
  · intro hne
    have hpos : 0 < iterations (samplesPushed bs) := by
      rw [← r4]
      exact List.length_pos.2 hne
    exact length_after_ge _ ((iterations_pos_iff _).1 hpos)
  · intro hne
    have hpos : 0 < iterations (samplesPushed bs) := by
      rw [← r5]
      exact List.length_pos.2 hne
    exact length_after_ge _ ((iterations_pos_iff _).1 hpos)

/-- Witness for `bounded_accumulator`: a new processor fed one block of
`fftSize` samples has computed a transform on each track and keeps at least
`fftSize - hopSize` samples in each accumulator. -/
theorem bounded_accumulator_witness :
    (fftLogs testEnv construct warmRun ≠ [] ∧ sineLogs testEnv construct warmRun ≠ [])
    ∧ ((processBlocks testEnv construct warmRun).monoFifo.length < fftSize
      ∧ (processBlocks testEnv construct warmRun).sineFifo.length < fftSize)
    ∧ fftSize - hopSize ≤ (processBlocks testEnv construct warmRun).monoFifo.length
    ∧ fftSize - hopSize ≤ (processBlocks testEnv construct warmRun).sineFifo.length := by
  have hw := logs_ne_nil_of_warm testEnv (construct : TelevisionAudioProcessor ℚ) rfl rfl rfl
    warmRun (Nat.le_of_eq samplesPushed_warmRun.symm)
  have h := bounded_accumulator testEnv (construct : TelevisionAudioProcessor ℚ) (Or.inl rfl)
    warmRun
  exact ⟨hw, h.1, h.2.1 hw.1, h.2.2 hw.2⟩

end TelevisionAudioProcessor

/-! ## Equivalence of the two tracks -/

namespace TelevisionAudioProcessor

/-- Closed form of the comparison loop, on any state. -/
theorem runFFTByLengthLog_eq (env : Env K) (s : TelevisionAudioProcessor K) :
    runFFTByLengthLog env s
      = ({ s with
            monoFifo := s.monoFifo.drop (hopSize * iterations s.monoFifo.length)
            samplesSinceLastFFT :=
              s.samplesSinceLastFFT - ((hopSize * iterations s.monoFifo.length : Nat) : Int)
            latestMagnitudes :=
              if iterations s.monoFifo.length = 0 then s.latestMagnitudes
              else passSpectrum env s.monoFifo },
          List.replicate (iterations s.monoFifo.length)
            { fftData := fillFFTData s.monoFifo, published := passSpectrum env s.monoFifo }) := by
  generalize hn : s.monoFifo.length = n
  induction n using Nat.strong_induction_on generalizing s with
  | _ n ih =>
    subst hn
    rw [runFFTByLengthLog]
    have h1 := fftSize_eq
    have h2 := hopSize_eq
    by_cases hlen : fftSize ≤ s.monoFifo.length
    · have hcond : (s.monoFifo.length : Int) ≥ (fftSize : Int) := by exact_mod_cast hlen
      rw [if_pos hcond]
      have hlt : (s.monoFifo.drop hopSize).length < s.monoFifo.length := by
        simp only [List.length_drop]
        omega
      simp only
      rw [ih _ hlt _ rfl]
      have hstep := iterations_step _ hlen
      have hpub : publish s.latestMagnitudes
          (env.transform (multiplyWithWindowingTable env.windowTable (fillFFTData s.monoFifo) fftSize))
          = passSpectrum env s.monoFifo := by
        rw [passSpectrum, publish_eq, publish_eq]
      simp only [List.length_drop, hpub, List.drop_drop]
      by_cases hk : iterations (s.monoFifo.length - hopSize) = 0
      · rw [hstep, hk]
        simp
      · have hge : fftSize + hopSize ≤ s.monoFifo.length := by
          have := (iterations_pos_iff (s.monoFifo.length - hopSize)).1 (Nat.pos_of_ne_zero hk)
          omega
        rw [hstep, passSpectrum_drop env _ hge, fillFFTData_drop _ hge]
        simp only [hk, if_false, Nat.succ_ne_zero, List.replicate_succ, Nat.mul_add, Nat.mul_one]
        congr 2
        · rw [Nat.add_comm]
        · push_cast
          ring
    · have hcond : ¬ ((s.monoFifo.length : Int) ≥ (fftSize : Int)) := by
        intro h
        exact hlen (by exact_mod_cast h)
      rw [if_neg hcond, iterations_of_lt _ (by omega)]
      simp

/-- In every reachable state the hop counter equals the primary accumulator
length and the two accumulators have the same length. -/
theorem reachable_invariant (env : Env K) (s : TelevisionAudioProcessor K)
    (h : Reachable env s) :
    s.samplesSinceLastFFT = (s.monoFifo.length : Int)
    ∧ s.monoFifo.length = s.sineFifo.length := by
  induction h with
  | construct => exact ⟨rfl, rfl⟩
  | prepareToPlay s sr _ _ => exact ⟨rfl, rfl⟩
  | processBlock s level buffer _ ih =>
    obtain ⟨_, _, q3, q4, q5, _⟩ := processBlockLog_spec env s level buffer ih.1
    refine ⟨q4, ?_⟩
    show (processBlockLog env s level buffer).state.monoFifo.length
      = (processBlockLog env s level buffer).state.sineFifo.length
    rw [q3, q5]
    simp only [List.length_drop, List.length_append, length_pushedAudio, length_pushedSine, ih.2]

/-- Claim C12 (track equivalence). In every state reachable from construction
through `prepareToPlay` and `processBlock`, `samplesSinceLastFFT` equals the
length of `monoFifo` and the two accumulators have equal length; the same
equality holds when `runFFTIfReady` is entered, where the loop does exactly
what it would do without the hop-counter test; and in every `processBlock`
call the two tracks compute the same number of transforms. -/
theorem track_equivalence (env : Env K) (s : TelevisionAudioProcessor K)
    (h : Reachable env s) :
    s.samplesSinceLastFFT = (s.monoFifo.length : Int)
    ∧ s.monoFifo.length = s.sineFifo.length
    ∧ ∀ (level : K) (buffer : AudioBuffer K),
        (feedInput s buffer).samplesSinceLastFFT = ((feedInput s buffer).monoFifo.length : Int)
        ∧ runFFTIfReadyLog env (feedInput s buffer) = runFFTByLengthLog env (feedInput s buffer)
        ∧ (processBlockLog env s level buffer).fftLog.length
            = (processBlockLog env s level buffer).sineLog.length := by
  obtain ⟨i1, i2⟩ := reachable_invariant env s h
  refine ⟨i1, i2, ?_⟩
  intro level buffer
  have hinv2 : (feedInput s buffer).samplesSinceLastFFT
      = ((feedInput s buffer).monoFifo.length : Int) := by
    rw [feedInput_eq]
    simp only [List.length_append, length_pushedAudio, i1]
    push_cast
    rfl
  obtain ⟨q1, q2, _⟩ := processBlockLog_spec env s level buffer i1
  refine ⟨hinv2, ?_, ?_⟩
  · rw [runFFTIfReadyLog_eq env _ hinv2, runFFTByLengthLog_eq]
  · rw [q1, q2]
    simp only [List.length_replicate, List.length_append, length_pushedAudio,
      length_pushedSine, i2]

/-- Witness for `track_equivalence`: the state after one `processBlock` call on
a new processor is reachable, and its accumulators have equal length. -/
theorem track_equivalence_witness :
    Reachable testEnv (processBlock testEnv construct 1 (constantBuffer 2 3 (1 : ℚ)))
    ∧ (processBlock testEnv construct 1 (constantBuffer 2 3 (1 : ℚ))).monoFifo.length
        = (processBlock testEnv construct 1 (constantBuffer 2 3 (1 : ℚ))).sineFifo.length :=
  ⟨Reachable.processBlock _ _ _ Reachable.construct,
    (track_equivalence testEnv _
      (Reachable.processBlock _ _ _ Reachable.construct)).2.1⟩

end TelevisionAudioProcessor

/-! ## Repeated frames within one call -/

namespace TelevisionAudioProcessor

/-- Every pass of `runFFTIfReady`, on any state, fills `fftData` from the last
`fftSize` samples held at entry and publishes their spectrum. -/
theorem runFFTIfReadyLog_records (env : Env K) (s : TelevisionAudioProcessor K) :
    ∀ r ∈ (runFFTIfReadyLog env s).2,
      fftSize ≤ s.monoFifo.length ∧ r.fftData = fillFFTData s.monoFifo
        ∧ r.published = passSpectrum env s.monoFifo := by
  generalize hn : s.monoFifo.length = n
  induction n using Nat.strong_induction_on generalizing s with
  | _ n ih =>
    subst hn
    rw [runFFTIfReadyLog]
    have h1 := fftSize_eq
    have h2 := hopSize_eq
    split
    · rename_i hcond
      have hlen : fftSize ≤ s.monoFifo.length := by exact_mod_cast hcond.2
      have hlt : (s.monoFifo.drop hopSize).length < s.monoFifo.length := by
        simp only [List.length_drop]
        omega
      have hpub : publish s.latestMagnitudes
          (env.transform (multiplyWithWindowingTable env.windowTable (fillFFTData s.monoFifo) fftSize))
          = passSpectrum env s.monoFifo := by
        rw [passSpectrum, publish_eq, publish_eq]
      intro r hr
      simp only [List.mem_cons] at hr
      rcases hr with hr | hr
      · rw [hr]
        exact ⟨hlen, rfl, hpub⟩
      · obtain ⟨g1, g2, g3⟩ := ih _ hlt _ rfl r hr
        simp only [List.length_drop] at g1
        have hge : fftSize + hopSize ≤ s.monoFifo.length := by omega
        simp only at g2 g3
        rw [fillFFTData_drop _ hge] at g2
        rw [passSpectrum_drop env _ hge] at g3
        exact ⟨hlen, g2, g3⟩
    · intro r hr
      simp at hr

/-- Every pass of `runSineFFTIfReady`, on any state, likewise. -/
theorem runSineFFTIfReadyLog_records (env : Env K) (s : TelevisionAudioProcessor K) :
    ∀ r ∈ (runSineFFTIfReadyLog env s).2,
      fftSize ≤ s.sineFifo.length ∧ r.fftData = fillFFTData s.sineFifo
        ∧ r.published = passSpectrum env s.sineFifo := by
  intro r hr
  rw [runSineFFTIfReadyLog_eq] at hr
  obtain ⟨hk, hr2⟩ := List.mem_replicate.1 hr
  rw [hr2]
  exact ⟨(iterations_pos_iff _).1 (Nat.pos_of_ne_zero hk), rfl, rfl⟩

/-- Claim C13 (repeated frames within one call). In a single `runFFTIfReady` or
`runSineFFTIfReady` call, on any state and however many transforms it computes,
every transform analyses the same `fftSize` samples, the last `fftSize` samples
of the accumulator at call entry, and publishes the same spectrum; so any two
transforms of one call are equal. -/
theorem repeated_frames (env : Env K) (s : TelevisionAudioProcessor K) :
    (∀ r ∈ (runFFTIfReadyLog env s).2,
        r.frame = lastSamples fftSize s.monoFifo ∧ r.frame.length = fftSize
          ∧ r.published = passSpectrum env s.monoFifo)
    ∧ (∀ r1 ∈ (runFFTIfReadyLog env s).2, ∀ r2 ∈ (runFFTIfReadyLog env s).2, r1 = r2)
    ∧ (∀ r ∈ (runSineFFTIfReadyLog env s).2,
        r.frame = lastSamples fftSize s.sineFifo ∧ r.frame.length = fftSize
          ∧ r.published = passSpectrum env s.sineFifo)
    ∧ (∀ r1 ∈ (runSineFFTIfReadyLog env s).2, ∀ r2 ∈ (runSineFFTIfReadyLog env s).2,
        r1 = r2) := by
  have ha := runFFTIfReadyLog_records env s
  have hs := runSineFFTIfReadyLog_records env s
  have hrec : ∀ a b : FFTRecord K, a.fftData = b.fftData → a.published = b.published → a = b := by
    intro a b e1 e2
    cases a
    cases b
    simp only at e1 e2
    rw [e1, e2]
  refine ⟨?_, ?_, ?_, ?_⟩
  · intro r hr
    obtain ⟨g1, g2, g3⟩ := ha r hr
    rw [FFTRecord.frame, g2, frame_fillFFTData _ g1]
    exact ⟨rfl, length_lastSamples _ _ g1, g3⟩
  · intro r1 h1 r2 h2
    obtain ⟨_, a2, a3⟩ := ha r1 h1
    obtain ⟨_, b2, b3⟩ := ha r2 h2
    exact hrec r1 r2 (a2.trans b2.symm) (a3.trans b3.symm)
  · intro r hr
    obtain ⟨g1, g2, g3⟩ := hs r hr
    rw [FFTRecord.frame, g2, frame_fillFFTData _ g1]
    exact ⟨rfl, length_lastSamples _ _ g1, g3⟩
  · intro r1 h1 r2 h2
    obtain ⟨_, a2, a3⟩ := hs r1 h1
    obtain ⟨_, b2, b3⟩ := hs r2 h2
    exact hrec r1 r2 (a2.trans b2.symm) (a3.trans b3.symm)

theorem length_stepBlock : stepBlock.length = fftSize + hopSize := by
  simp [stepBlock]

theorem pushAudioToFifo_mono (s : TelevisionAudioProcessor K) (left : List K) (n : Nat)
    (hl : left.length = n) :
    s.pushAudioToFifo left none n
      = { s with
          monoFifo := s.monoFifo ++ left
          samplesSinceLastFFT := s.samplesSinceLastFFT + n } := by
  rw [pushAudioToFifo_eq]
  have h := map_getD_range (0 : K) left 0 n (by omega)
  simp only [Nat.zero_add, List.drop_zero] at h
  rw [List.take_of_length_le (by omega)] at h
  have hm : (List.range n).map (mixSample left none) = left := h
  rw [hm]

theorem stepState_eq :
    stepState
      = { (construct : TelevisionAudioProcessor ℚ) with
          monoFifo := stepBlock
          samplesSinceLastFFT := ((fftSize + hopSize : Nat) : Int) } := by
  rw [stepState, pushAudioToFifo_mono _ _ _ length_stepBlock]
  simp [construct]

theorem stepState_monoFifo : stepState.monoFifo = stepBlock := by
  rw [stepState_eq]

theorem stepState_counter :
    stepState.samplesSinceLastFFT = (stepState.monoFifo.length : Int) := by
  rw [stepState_eq]
  simp only [length_stepBlock]

theorem iterations_two : iterations (fftSize + hopSize) = 2 := by
  unfold iterations
  rw [fftSize_eq, hopSize_eq]
  rfl

/-- The last `fftSize` samples of `stepBlock` are not its first `fftSize` samples. -/
theorem stepBlock_windows_differ :
    lastSamples fftSize stepBlock ≠ stepBlock.take fftSize := by
  have h1 := fftSize_eq
  have h2 := hopSize_eq
  intro h
  have hmem : (1 : ℚ) ∈ lastSamples fftSize stepBlock := by
    unfold lastSamples
    rw [length_stepBlock]
    unfold stepBlock
    rw [List.drop_append_of_le_length (by rw [List.length_replicate]; omega)]
    apply List.mem_append_right
    rw [List.mem_replicate]
    exact ⟨by omega, rfl⟩
  rw [h] at hmem
  unfold stepBlock at hmem
  rw [List.take_left' (List.length_replicate _ _)] at hmem
  have := List.eq_of_mem_replicate hmem
  norm_num at this

/-- Witness for `repeated_frames`: entered with `fftSize` zeros followed by
`hopSize` ones, `runFFTIfReady` computes two transforms; both analyse the last
`fftSize` samples, which differ from the first `fftSize` samples, the window a
hop-shifted analysis would have started with. -/
theorem repeated_frames_witness :
    (runFFTIfReadyLog testEnv stepState).2.length = 2
    ∧ (∀ r ∈ (runFFTIfReadyLog testEnv stepState).2,
        r.frame = lastSamples fftSize stepState.monoFifo ∧ r.frame.length = fftSize
          ∧ r.published = passSpectrum testEnv stepState.monoFifo)
    ∧ lastSamples fftSize stepState.monoFifo ≠ stepState.monoFifo.take fftSize := by
  refine ⟨?_, (repeated_frames testEnv stepState).1, ?_⟩
  · rw [runFFTIfReadyLog_eq testEnv stepState stepState_counter]
    simp only [List.length_replicate, stepState_monoFifo, length_stepBlock, iterations_two]
  · rw [stepState_monoFifo]
    exact stepBlock_windows_differ

end TelevisionAudioProcessor

end Model

end AudioSpectrogram
